import Mathlib

/-!
Shallow embedding of `src/logged_config.py`: audit-logged nested configuration
containers (`LoggedConfiguration`, `LoggedList`, `LoggedSet`), the recursive
wrapping function `wrap_logged_config_value` and the flattener `_unwrap`.
-/

namespace LoggedConfig

/-- Primitive (non-container) host values: numbers, strings, booleans, `None`.
The model keeps `bool` and `int` distinct (the host identifies `True` with `1`;
no claim here depends on that identification). -/
inductive Prim where
  | int (n : Int)
  | str (s : String)
  | bool (b : Bool)
  | none
  deriving DecidableEq, Repr

/-- Runtime values: plain containers (`vdict`, `vlist`, `vtuple`, `vset`) and
primitives, together with the three logged container classes.  `llist`/`lset`
are subclasses of the host `list`/`set`; `lconf` is a `collections.Mapping`
but *not* a `dict`.  A host `set` is modelled as the list of its elements in
iteration order. -/
inductive Value where
  | prim (p : Prim)
  | vlist (xs : List Value)
  | vtuple (xs : List Value)
  | vset (xs : List Value)
  | vdict (xs : List (String × Value))
  | llist (name : String) (xs : List Value)
  | lset (name : String) (xs : List Value)
  | lconf (name : String) (xs : List (String × Value))
  deriving Repr

open Value

mutual

/-- Structural equality on values.  On hashable values — the only ones that can
reach a host `set`'s equality test — this coincides with host equality; the
host additionally identifies a logged container with a plain one of equal
contents (e.g. `LoggedList` vs `list`), which no claim here depends on. -/
def Value.beq : Value → Value → Bool
  | .prim p, .prim q => p = q
  | .vlist xs, .vlist ys => Value.beqList xs ys
  | .vtuple xs, .vtuple ys => Value.beqList xs ys
  | .vset xs, .vset ys => Value.beqList xs ys
  | .vdict xs, .vdict ys => Value.beqEntries xs ys
  | .llist n xs, .llist m ys => n = m && Value.beqList xs ys
  | .lset n xs, .lset m ys => n = m && Value.beqList xs ys
  | .lconf n xs, .lconf m ys => n = m && Value.beqEntries xs ys
  | _, _ => false

def Value.beqList : List Value → List Value → Bool
  | [], [] => true
  | x :: xs, y :: ys => Value.beq x y && Value.beqList xs ys
  | _, _ => false

def Value.beqEntries : List (String × Value) → List (String × Value) → Bool
  | [], [] => true
  | (k, x) :: xs, (l, y) :: ys => k = l && Value.beq x y && Value.beqEntries xs ys
  | _, _ => false

end

mutual

theorem Value.beq_refl : ∀ a : Value, Value.beq a a = true
  | .prim _ => by simp [Value.beq]
  | .vlist xs => by simp [Value.beq, Value.beqList_refl xs]
  | .vtuple xs => by simp [Value.beq, Value.beqList_refl xs]
  | .vset xs => by simp [Value.beq, Value.beqList_refl xs]
  | .vdict xs => by simp [Value.beq, Value.beqEntries_refl xs]
  | .llist n xs => by simp [Value.beq, Value.beqList_refl xs]
  | .lset n xs => by simp [Value.beq, Value.beqList_refl xs]
  | .lconf n xs => by simp [Value.beq, Value.beqEntries_refl xs]

theorem Value.beqList_refl : ∀ xs : List Value, Value.beqList xs xs = true
  | [] => rfl
  | x :: xs => by simp [Value.beqList, Value.beq_refl x, Value.beqList_refl xs]

theorem Value.beqEntries_refl : ∀ xs : List (String × Value), Value.beqEntries xs xs = true
  | [] => rfl
  | (k, x) :: xs => by
      simp [Value.beqEntries, Value.beq_refl x, Value.beqEntries_refl xs]

end

mutual

theorem Value.eq_of_beq : ∀ {a b : Value}, Value.beq a b = true → a = b
  | .prim p, .prim q => fun h => by
      simp [Value.beq] at h; rw [h]
  | .vlist xs, .vlist ys => fun h => by
      simp [Value.beq] at h; rw [Value.eqList_of_beq h]
  | .vtuple xs, .vtuple ys => fun h => by
      simp [Value.beq] at h; rw [Value.eqList_of_beq h]
  | .vset xs, .vset ys => fun h => by
      simp [Value.beq] at h; rw [Value.eqList_of_beq h]
  | .vdict xs, .vdict ys => fun h => by
      simp [Value.beq] at h; rw [Value.eqEntries_of_beq h]
  | .llist n xs, .llist m ys => fun h => by
      simp [Value.beq] at h; rw [h.1, Value.eqList_of_beq h.2]
  | .lset n xs, .lset m ys => fun h => by
      simp [Value.beq] at h; rw [h.1, Value.eqList_of_beq h.2]
  | .lconf n xs, .lconf m ys => fun h => by
      simp [Value.beq] at h; rw [h.1, Value.eqEntries_of_beq h.2]
  | .prim _, .vlist _ | .prim _, .vtuple _ | .prim _, .vset _ | .prim _, .vdict _
  | .prim _, .llist _ _ | .prim _, .lset _ _ | .prim _, .lconf _ _
  | .vlist _, .prim _ | .vlist _, .vtuple _ | .vlist _, .vset _ | .vlist _, .vdict _
  | .vlist _, .llist _ _ | .vlist _, .lset _ _ | .vlist _, .lconf _ _
  | .vtuple _, .prim _ | .vtuple _, .vlist _ | .vtuple _, .vset _ | .vtuple _, .vdict _
  | .vtuple _, .llist _ _ | .vtuple _, .lset _ _ | .vtuple _, .lconf _ _
  | .vset _, .prim _ | .vset _, .vlist _ | .vset _, .vtuple _ | .vset _, .vdict _
  | .vset _, .llist _ _ | .vset _, .lset _ _ | .vset _, .lconf _ _
  | .vdict _, .prim _ | .vdict _, .vlist _ | .vdict _, .vtuple _ | .vdict _, .vset _
  | .vdict _, .llist _ _ | .vdict _, .lset _ _ | .vdict _, .lconf _ _
  | .llist _ _, .prim _ | .llist _ _, .vlist _ | .llist _ _, .vtuple _ | .llist _ _, .vset _
  | .llist _ _, .vdict _ | .llist _ _, .lset _ _ | .llist _ _, .lconf _ _
  | .lset _ _, .prim _ | .lset _ _, .vlist _ | .lset _ _, .vtuple _ | .lset _ _, .vset _
  | .lset _ _, .vdict _ | .lset _ _, .llist _ _ | .lset _ _, .lconf _ _
  | .lconf _ _, .prim _ | .lconf _ _, .vlist _ | .lconf _ _, .vtuple _ | .lconf _ _, .vset _
  | .lconf _ _, .vdict _ | .lconf _ _, .llist _ _ | .lconf _ _, .lset _ _ =>
      fun h => by simp [Value.beq] at h

theorem Value.eqList_of_beq : ∀ {xs ys : List Value}, Value.beqList xs ys = true → xs = ys
  | [], [] => fun _ => rfl
  | x :: xs, y :: ys => fun h => by
      simp [Value.beqList] at h
      rw [Value.eq_of_beq h.1, Value.eqList_of_beq h.2]
  | [], _ :: _ => fun h => by simp [Value.beqList] at h
  | _ :: _, [] => fun h => by simp [Value.beqList] at h

theorem Value.eqEntries_of_beq :
    ∀ {xs ys : List (String × Value)}, Value.beqEntries xs ys = true → xs = ys
  | [], [] => fun _ => rfl
  | (k, x) :: xs, (l, y) :: ys => fun h => by
      simp [Value.beqEntries] at h
      rw [h.1.1, Value.eq_of_beq h.1.2, Value.eqEntries_of_beq h.2]
  | [], _ :: _ => fun h => by simp [Value.beqEntries] at h
  | _ :: _, [] => fun h => by simp [Value.beqEntries] at h

end

instance : DecidableEq Value := fun a b =>
  decidable_of_iff (Value.beq a b = true)
    ⟨Value.eq_of_beq, fun h => h ▸ Value.beq_refl a⟩

/-- Host hashability: primitives are hashable, tuples are hashable when all of
their elements are, and every other container — including the three logged
classes (`LoggedList`/`LoggedSet` subclass `list`/`set`; `collections.Mapping`
sets `__hash__ = None`) — is unhashable. -/
def hashable : Value → Bool
  | .prim _ => true
  | .vtuple xs => go xs
  | _ => false
where
  go : List Value → Bool
    | [] => true
    | x :: xs => hashable x && go xs

example : hashable (.vtuple [.prim (.int 1), .vtuple [.prim .none]]) = true := by decide
example : hashable (.vtuple [.vlist []]) = false := by decide
example : (Value.vlist [.prim (.int 1)]) ≠ (Value.vtuple [.prim (.int 1)]) := by decide

/-- Host exceptions raised by the operations of `src/logged_config.py`:
`KeyError` (dict lookup/deletion, `set.remove`), `AttributeError`
(`__getattr__`), `ValueError` (`list.remove`), `IndexError` (`list.pop`) and
`TypeError` (unhashable element, or a call with the wrong number of
arguments). -/
inductive Err where
  | keyError (k : String)
  | keyErrorVal (v : Value)
  | attributeError (a : String)
  | valueError
  | indexError
  | typeError
  deriving DecidableEq, Repr

instance {ε α} [DecidableEq ε] [DecidableEq α] : DecidableEq (Except ε α)
  | .ok a, .ok b =>
      if h : a = b then .isTrue (h ▸ rfl) else .isFalse (fun hh => h (Except.ok.inj hh))
  | .error e, .error f =>
      if h : e = f then .isTrue (h ▸ rfl) else .isFalse (fun hh => h (Except.error.inj hh))
  | .ok _, .error _ => .isFalse (fun hh => Except.noConfusion hh)
  | .error _, .ok _ => .isFalse (fun hh => Except.noConfusion hh)

/-- Membership in a host `set`'s backing store, by element equality. -/
def setMem (xs : List Value) (v : Value) : Bool :=
  xs.any (fun x => x = v)

/-- Adding one element to a host `set`'s backing store: a no-op when an equal
element is present, otherwise the element joins the iteration order at the
end.  Callers check `hashable` first, as the host does. -/
def setInsert (xs : List Value) (v : Value) : List Value :=
  if setMem xs v then xs else xs ++ [v]

mutual

/-- `wrap_logged_config_value(config_name, value)` (src 163–170): a `list` or
`tuple` — including a `LoggedList`, which subclasses `list` — becomes a
`LoggedList`; a `set` — including a `LoggedSet` — becomes a `LoggedSet`; a
`dict` becomes a `LoggedConfiguration`; anything else, in particular a
`LoggedConfiguration` (a `collections.Mapping`, not a `dict`), is returned
unchanged.  Constructing a `LoggedSet` hashes each wrapped element, so
wrapping can raise `TypeError`. -/
def wrap_logged_config_value (config_name : String) : Value → Except Err Value
  | .vlist xs => (Value.llist config_name ·) <$> wrapElems config_name xs
  | .vtuple xs => (Value.llist config_name ·) <$> wrapElems config_name xs
  | .llist _ xs => (Value.llist config_name ·) <$> wrapElems config_name xs
  | .vset xs => (Value.lset config_name ·) <$> wrapSetElems config_name [] xs
  | .lset _ xs => (Value.lset config_name ·) <$> wrapSetElems config_name [] xs
  | .vdict xs => (Value.lconf config_name ·) <$> wrapEntries config_name xs
  | .prim p => pure (.prim p)
  | .lconf n xs => pure (.lconf n xs)

/-- `LoggedList.__init__`'s element generator (src 68–71): wraps every element
with the shared child name `name[...]`. -/
def wrapElems (name : String) : List Value → Except Err (List Value)
  | [] => pure []
  | x :: xs => do
      let w ← wrap_logged_config_value (name ++ "[...]") x
      let ws ← wrapElems name xs
      pure (w :: ws)

/-- `LoggedSet.__init__` (src 113–119): `set(generator)` wraps each element
with child name `name[...]`, then hashes it into the set; an unhashable
wrapped element (any container but a hashable tuple, and every wrapped
container) raises `TypeError`, keeping the elements inserted so far pending
in the never-returned object. -/
def wrapSetElems (name : String) (acc : List Value) : List Value → Except Err (List Value)
  | [] => pure acc
  | x :: xs => do
      let w ← wrap_logged_config_value (name ++ "[...]") x
      if hashable w then wrapSetElems name (setInsert acc w) xs
      else .error .typeError

/-- `LoggedConfiguration.__init__`'s dict comprehension (src 9–11): wraps
every value with child name `name.key`. -/
def wrapEntries (name : String) : List (String × Value) → Except Err (List (String × Value))
  | [] => pure []
  | (k, v) :: xs => do
      let w ← wrap_logged_config_value (name ++ "." ++ k) v
      let ws ← wrapEntries name xs
      pure ((k, w) :: ws)

end

mutual

/-- `_unwrap(value, replace_sets_with_lists)` (src 173–180): recursively
flattens the three logged classes back to plain values; everything else —
primitives, but also plain containers — is returned unchanged. -/
def _unwrap (replace_sets_with_lists : Bool) : Value → Value
  | .lconf _ xs => .vdict (unwrapEntries replace_sets_with_lists xs)
  | .llist _ xs => .vlist (unwrapList replace_sets_with_lists xs)
  | .lset _ xs =>
      if replace_sets_with_lists then .vlist (unwrapList replace_sets_with_lists xs)
      else .vset (unwrapList replace_sets_with_lists xs)
  | .prim p => .prim p
  | .vlist xs => .vlist xs
  | .vtuple xs => .vtuple xs
  | .vset xs => .vset xs
  | .vdict xs => .vdict xs

def unwrapList (replace_sets_with_lists : Bool) : List Value → List Value
  | [] => []
  | x :: xs =>
      _unwrap replace_sets_with_lists x :: unwrapList replace_sets_with_lists xs

def unwrapEntries (replace_sets_with_lists : Bool) :
    List (String × Value) → List (String × Value)
  | [] => []
  | (k, v) :: xs =>
      (k, _unwrap replace_sets_with_lists v) :: unwrapEntries replace_sets_with_lists xs

end

example :
    wrap_logged_config_value "n" (.vdict [("k", .vtuple [.prim (.int 1)])]) =
      .ok (.lconf "n" [("k", .llist "n.k" [.prim (.int 1)])]) := by decide

example :
    wrap_logged_config_value "n" (.vset [.vtuple [.prim (.int 1)]]) = .error .typeError := by
  decide

example :
    _unwrap false (.lconf "n" [("k", .llist "n.k" [.prim (.int 1)])]) =
      .vdict [("k", .vlist [.prim (.int 1)])] := by decide

/-- The message of one `logger.info` call: one constructor per fixed template
in the source, carrying `self._name` and the interpolated arguments. -/
inductive LogMsg where
  | settingKey (name key : String) (v : Value)          -- src 18
  | removingKey (name key : String)                     -- src 23
  | appending (name : String) (v : Value)               -- src 75
  | removingVal (name : String) (v : Value)             -- src 80, 142
  | inserting (name : String) (v : Value) (index : Int) -- src 84
  | poppingIndex (name : String) (index : Int)          -- src 89
  | clearing (name : String)                            -- src 93, 126
  | extending (name : String) (vs : List Value)         -- src 97
  | adding (name : String) (v : Value)                  -- src 122
  | diffUpdating (name : String) (vs : List Value)      -- src 130
  | discarding (name : String) (v : Value)              -- src 134
  | poppingVal (name : String) (v : Value)              -- src 138
  | symDiffUpdating (name : String) (vs : List Value)   -- src 146
  | updating (name : String) (vs : List Value)          -- src 150
  deriving DecidableEq, Repr

/-- One informational log record: the channel of `self._logger` and the
message. -/
structure LogRec where
  channel : String
  msg : LogMsg
  deriving DecidableEq, Repr

/-- Observable events of one method call, in program order: `log r` is a
`logger.info` emission, `mutate` marks the underlying container operation
touching the stored contents. -/
inductive Event where
  | log (r : LogRec)
  | mutate
  deriving DecidableEq, Repr

/-- Host `dict` lookup. -/
def dictGet : List (String × Value) → String → Option Value
  | [], _ => Option.none
  | (k', v') :: xs, k => if k' = k then some v' else dictGet xs k

/-- Host `dict` assignment: replace in place when the key exists (keeping its
position in insertion order), otherwise append. -/
def dictSet : List (String × Value) → String → Value → List (String × Value)
  | [], k, v => [(k, v)]
  | (k', v') :: xs, k, v => if k' = k then (k, v) :: xs else (k', v') :: dictSet xs k v

/-- Host `dict` deletion; `Option.none` models `KeyError`. -/
def dictDel : List (String × Value) → String → Option (List (String × Value))
  | [], _ => Option.none
  | (k', v') :: xs, k =>
      if k' = k then some xs else (fun t => (k', v') :: t) <$> dictDel xs k

/-! ## LoggedConfiguration -/

/-- Instance state of `LoggedConfiguration` (src 6–12): the `_name` string,
the `_data` dict (insertion-ordered, unique string keys) and `_logger`,
identified by the channel it was obtained from via `logging.getLogger`. -/
structure LoggedConfiguration where
  _name : String
  _data : List (String × Value)
  _logger : String
  deriving DecidableEq, Repr

/-- `LoggedConfiguration.__init__(name, data)` (src 7–12): wraps every value of
`data` under child name `name.key` and binds the logger to `name`. -/
def LoggedConfiguration.init (name : String) (data : List (String × Value)) :
    Except Err LoggedConfiguration := do
  let wrapped ← wrapEntries name data
  pure ⟨name, wrapped, name⟩

/-- `__getitem__` (src 14–15): `self._data[key]`; `KeyError` when absent.
Read-only: no log, no mutation. -/
def LoggedConfiguration.getItem (m : LoggedConfiguration) (key : String) :
    List Event × Except Err Value :=
  ([], match dictGet m._data key with
      | some v => .ok v
      | Option.none => .error (.keyError key))

/-- `__setitem__` (src 17–20): logs, wraps the value under `name.key`, stores
it.  A `TypeError` inside wrapping (a set value holding container-shaped
elements) fires after the log and before the store. -/
def LoggedConfiguration.setItem (m : LoggedConfiguration) (key : String) (value : Value) :
    List Event × LoggedConfiguration × Option Err :=
  let r : LogRec := ⟨m._logger, .settingKey m._name key value⟩
  match wrap_logged_config_value (m._name ++ "." ++ key) value with
  | .error e => ([.log r], m, some e)
  | .ok w => ([.log r, .mutate], { m with _data := dictSet m._data key w }, Option.none)

/-- `__delitem__` (src 22–24): logs, then deletes; `KeyError` (raised after
the log) when the key is absent, leaving the store unchanged. -/
def LoggedConfiguration.delItem (m : LoggedConfiguration) (key : String) :
    List Event × LoggedConfiguration × Option Err :=
  let r : LogRec := ⟨m._logger, .removingKey m._name key⟩
  match dictDel m._data key with
  | Option.none => ([.log r], m, some (.keyError key))
  | some d => ([.log r, .mutate], { m with _data := d }, Option.none)

/-- `__contains__` (src 26–27): membership in `self._data`; read-only. -/
def LoggedConfiguration.containsKey (m : LoggedConfiguration) (item : String) :
    List Event × Bool :=
  ([], (dictGet m._data item).isSome)

/-- `__len__` (src 41–42); read-only. -/
def LoggedConfiguration.len (m : LoggedConfiguration) : List Event × Nat :=
  ([], m._data.length)

/-- `__iter__` (src 44–45): iteration over the keys of `self._data`;
read-only. -/
def LoggedConfiguration.iterKeys (m : LoggedConfiguration) : List Event × List String :=
  ([], m._data.map (·.1))

/-- Names of the instance attributes assigned in `__init__`; host attribute
lookup finds them in the instance `__dict__` before `__getattr__` is ever
consulted, and `__setattr__` (src 36) special-cases exactly this list. -/
def reservedAttrs : List String := ["_name", "_data", "_logger"]

/-- Class attributes of `LoggedConfiguration` reachable by attribute lookup:
the methods defined in the class body plus the public methods inherited from
`collections.Mapping`.  (Dunder names behave the same way and are omitted.) -/
def classAttrs : List String := ["copy", "to_dict", "get", "keys", "items", "values"]

/-- The possible results of host attribute lookup on a `LoggedConfiguration`:
a value of the store (via `__getattr__`), one of the three instance fields, or
a bound method (class attribute). -/
inductive AttrVal where
  | stored (v : Value)
  | fieldName (s : String)
  | fieldData (d : List (String × Value))
  | fieldLogger (channel : String)
  | boundMethod (meth : String)
  deriving DecidableEq, Repr

/-- Host attribute lookup on a `LoggedConfiguration`: the instance `__dict__`
(`_name`, `_data`, `_logger`) first, then class attributes, and only then
`__getattr__` (src 29–33), which reads `self._data` and turns `KeyError` into
`AttributeError`.  Read-only. -/
def LoggedConfiguration.getAttr (m : LoggedConfiguration) (attr : String) :
    List Event × Except Err AttrVal :=
  ([], if attr = "_name" then .ok (.fieldName m._name)
      else if attr = "_data" then .ok (.fieldData m._data)
      else if attr = "_logger" then .ok (.fieldLogger m._logger)
      else if attr ∈ classAttrs then .ok (.boundMethod attr)
      else match dictGet m._data attr with
          | some v => .ok (.stored v)
          | Option.none => .error (.attributeError attr))

/-- `super().__setattr__` in `__setattr__` (src 37): a direct instance-field
write, bypassing logging and the store.  The host stores the raw assigned
object; this model records the shapes the rest of the class can consume
(`_name`: a string; `_data`: a dict's entries; `_logger` is tracked by channel
only) and leaves the field unchanged for other shapes, which no claim
exercises. -/
def LoggedConfiguration.rawSetAttr (m : LoggedConfiguration) (attr : String)
    (value : Value) : LoggedConfiguration :=
  if attr = "_name" then
    match value with
    | .prim (.str s) => { m with _name := s }
    | _ => m
  else if attr = "_data" then
    match value with
    | .vdict d => { m with _data := d }
    | .lconf _ d => { m with _data := d }
    | _ => m
  else m

/-- `__setattr__` (src 35–39): the three reserved names are written directly
(no log record, no wrapping); every other name routes to `self[attr] = value`,
i.e. `__setitem__`. -/
def LoggedConfiguration.setAttr (m : LoggedConfiguration) (attr : String)
    (value : Value) : List Event × LoggedConfiguration × Option Err :=
  if attr ∈ reservedAttrs then ([], m.rawSetAttr attr value, Option.none)
  else m.setItem attr value

/-- `__copy__` (src 52–53): `type(self)('%s(copy)' % self._name, self._data)` —
re-run `__init__` on the stored (already wrapped) values under the renamed
name.  Wrapping passes `LoggedConfiguration` children through unchanged but
rebuilds fresh `LoggedList`/`LoggedSet` children. -/
def LoggedConfiguration.copyMagic (m : LoggedConfiguration) :
    Except Err LoggedConfiguration :=
  LoggedConfiguration.init (m._name ++ "(copy)") m._data

mutual

/-- `copy.deepcopy` on model values.  Primitives are atomic; plain containers
copy recursively; the three logged classes define `__deepcopy__` (src 55–56,
105–106, 156–157): deep-copy the contents, then re-run `__init__` under the
renamed `<name>(copy)`, which re-wraps the copied children.  The `memo`
argument only short-circuits references shared inside one tree and is dropped
(no claim exercises in-tree sharing).  A plain `set` re-hashes its copied
elements; copying preserves hashability, so no check is modelled there. -/
def pyDeepCopy : Value → Except Err Value
  | .prim p => pure (.prim p)
  | .vlist xs => Value.vlist <$> pyDeepCopyList xs
  | .vtuple xs => Value.vtuple <$> pyDeepCopyList xs
  | .vset xs => Value.vset <$> pyDeepCopyList xs
  | .vdict xs => Value.vdict <$> pyDeepCopyEntries xs
  | .llist n xs => do
      let ys ← pyDeepCopyList xs
      (Value.llist (n ++ "(copy)") ·) <$> wrapElems (n ++ "(copy)") ys
  | .lset n xs => do
      let ys ← pyDeepCopyList xs
      (Value.lset (n ++ "(copy)") ·) <$> wrapSetElems (n ++ "(copy)") [] ys
  | .lconf n xs => do
      let ys ← pyDeepCopyEntries xs
      (Value.lconf (n ++ "(copy)") ·) <$> wrapEntries (n ++ "(copy)") ys

def pyDeepCopyList : List Value → Except Err (List Value)
  | [] => pure []
  | x :: xs => do
      let y ← pyDeepCopy x
      let ys ← pyDeepCopyList xs
      pure (y :: ys)

def pyDeepCopyEntries : List (String × Value) → Except Err (List (String × Value))
  | [] => pure []
  | (k, v) :: xs => do
      let y ← pyDeepCopy v
      let ys ← pyDeepCopyEntries xs
      pure ((k, y) :: ys)

end

/-- `__deepcopy__` (src 55–56): re-run `__init__` on
`copy.deepcopy(self._data)` under the renamed name. -/
def LoggedConfiguration.deepcopyMagic (m : LoggedConfiguration) :
    Except Err LoggedConfiguration := do
  let d ← pyDeepCopyEntries m._data
  LoggedConfiguration.init (m._name ++ "(copy)") d

/-- `copy(deep=False)` (src 47–50): dispatches to `copy.copy`/`copy.deepcopy`,
which call `__copy__`/`__deepcopy__`. -/
def LoggedConfiguration.copy (m : LoggedConfiguration) (deep : Bool) :
    Except Err LoggedConfiguration :=
  if deep then m.deepcopyMagic else m.copyMagic

/-- `to_dict` (src 58–59): `_unwrap(self)` with the flag at its default
`False`. -/
def LoggedConfiguration.to_dict (m : LoggedConfiguration) : Value :=
  _unwrap false (.lconf m._name m._data)

/-! ## LoggedList -/

/-- Host `list.insert(index, value)`: the index is clamped, so insertion never
fails.  Negative indices count from the end. -/
def listInsertAt (xs : List Value) (index : Int) (v : Value) : List Value :=
  let n : Int := xs.length
  let pos : Nat := if index < 0 then (max 0 (n + index)).toNat else min index.toNat xs.length
  xs.take pos ++ v :: xs.drop pos

/-- The effective index of `list.pop`: a negative index counts from the end. -/
def pyPopIndex (index : Int) (n : Nat) : Int :=
  if index < 0 then index + n else index

/-- Host `list.pop(index)`: negative indices count from the end; an index out
of range raises `IndexError`. -/
def listPopAt (xs : List Value) (index : Int) : Except Err (Value × List Value) :=
  if h : 0 ≤ pyPopIndex index xs.length ∧ (pyPopIndex index xs.length).toNat < xs.length then
    .ok (xs.get ⟨(pyPopIndex index xs.length).toNat, h.2⟩,
      xs.take (pyPopIndex index xs.length).toNat ++
        xs.drop ((pyPopIndex index xs.length).toNat + 1))
  else .error .indexError

/-- Host `list.remove(value)`: drop the first element equal to the argument;
`Option.none` models `ValueError` when no element matches. -/
def listRemoveFirst (xs : List Value) (v : Value) : Option (List Value) :=
  match xs with
  | [] => Option.none
  | x :: rest =>
      if x = v then some rest else (fun t => x :: t) <$> listRemoveFirst rest v

/-- Instance state of `LoggedList` (src 65–72): the subclassed host `list`'s
contents plus `_name` and `_logger`. -/
structure LoggedList where
  _name : String
  elems : List Value
  _logger : String
  deriving DecidableEq, Repr

/-- `LoggedList.__init__(name, data)` (src 66–72): wraps every element under
the shared child name `name[...]` and binds the logger to `name`. -/
def LoggedList.init (name : String) (data : List Value) : Except Err LoggedList := do
  let ws ← wrapElems name data
  pure ⟨name, ws, name⟩

/-- `LoggedList.append` (src 74–77): logs, wraps the value, then
`list.append`.  A `TypeError` inside wrapping fires after the log and before
the append. -/
def LoggedList.append (l : LoggedList) (value : Value) :
    List Event × LoggedList × Option Err :=
  let r : LogRec := ⟨l._logger, .appending l._name value⟩
  match wrap_logged_config_value (l._name ++ "[...]") value with
  | .error e => ([.log r], l, some e)
  | .ok w => ([.log r, .mutate], { l with elems := l.elems ++ [w] }, Option.none)

/-- `LoggedList.remove` (src 79–81): logs, then `list.remove`; `ValueError`
(after the log) when no element equals the argument, leaving the list
unchanged. -/
def LoggedList.remove (l : LoggedList) (value : Value) :
    List Event × LoggedList × Option Err :=
  let r : LogRec := ⟨l._logger, .removingVal l._name value⟩
  match listRemoveFirst l.elems value with
  | Option.none => ([.log r], l, some .valueError)
  | some xs => ([.log r, .mutate], { l with elems := xs }, Option.none)

/-- `LoggedList.insert` (src 83–86): logs, wraps the value, then
`list.insert` (which clamps the index and never fails). -/
def LoggedList.insert (l : LoggedList) (index : Int) (value : Value) :
    List Event × LoggedList × Option Err :=
  let r : LogRec := ⟨l._logger, .inserting l._name value index⟩
  match wrap_logged_config_value (l._name ++ "[...]") value with
  | .error e => ([.log r], l, some e)
  | .ok w => ([.log r, .mutate], { l with elems := listInsertAt l.elems index w }, Option.none)

/-- `LoggedList.pop(index)` (src 88–90): logs, then `list.pop(index)`;
`IndexError` (after the log) leaves the list unchanged.  Unlike the host
method, the override has no default index. -/
def LoggedList.pop (l : LoggedList) (index : Int) :
    List Event × LoggedList × Except Err Value :=
  let r : LogRec := ⟨l._logger, .poppingIndex l._name index⟩
  match listPopAt l.elems index with
  | .error e => ([.log r], l, .error e)
  | .ok (v, xs) => ([.log r, .mutate], { l with elems := xs }, .ok v)

/-- `LoggedList.clear` (src 92–94): logs, then `list.clear`. -/
def LoggedList.clear (l : LoggedList) : List Event × LoggedList × Option Err :=
  let r : LogRec := ⟨l._logger, .clearing l._name⟩
  ([.log r, .mutate], { l with elems := [] }, Option.none)

/-- The loop inside `list.extend` consuming the wrapping generator of
`LoggedList.extend` (src 98–100): elements are wrapped lazily and appended one
at a time, so a `TypeError` raised by wrapping a later element keeps the
already-appended prefix. -/
def extendGo (name : String) (acc : List Value) :
    List Value → List Event × List Value × Option Err
  | [] => ([], acc, Option.none)
  | x :: xs =>
      match wrap_logged_config_value (name ++ "[...]") x with
      | .error e => ([], acc, some e)
      | .ok w =>
          let r := extendGo name (acc ++ [w]) xs
          (Event.mutate :: r.1, r.2.1, r.2.2)

/-- `LoggedList.extend` (src 96–100): logs once, then `list.extend` over the
generator that wraps each incoming element. -/
def LoggedList.extend (l : LoggedList) (iterable : List Value) :
    List Event × LoggedList × Option Err :=
  let r : LogRec := ⟨l._logger, .extending l._name iterable⟩
  let res := extendGo l._name l.elems iterable
  (Event.log r :: res.1, { l with elems := res.2.1 }, res.2.2)

/-- `LoggedList.__copy__` (src 102–103): re-run `__init__` on the current
elements under the renamed name (re-wrapping every element). -/
def LoggedList.copyMagic (l : LoggedList) : Except Err LoggedList :=
  LoggedList.init (l._name ++ "(copy)") l.elems

/-- `LoggedList.__deepcopy__` (src 105–106): re-run `__init__` on the
deep-copied elements under the renamed name. -/
def LoggedList.deepcopyMagic (l : LoggedList) : Except Err LoggedList := do
  let ys ← pyDeepCopyList l.elems
  LoggedList.init (l._name ++ "(copy)") ys

/-! ## LoggedSet -/

/-- Host `set(iterable)` seen from an existing backing store: hash and insert
each element in order; an unhashable element raises `TypeError`. -/
def pySetFold (acc : List Value) : List Value → Except Err (List Value)
  | [] => pure acc
  | x :: xs => if hashable x then pySetFold (setInsert acc x) xs else .error .typeError

/-- Removing an element from a host `set`'s backing store (at most one stored
element is equal to it). -/
def setErase (xs : List Value) (v : Value) : List Value :=
  xs.filter (fun x => !(x = v : Bool))

/-- Instance state of `LoggedSet` (src 112–119): the subclassed host `set`'s
elements in iteration order plus `_name` and `_logger`. -/
structure LoggedSet where
  _name : String
  elems : List Value
  _logger : String
  deriving DecidableEq, Repr

/-- `LoggedSet.__init__(name, data)` (src 113–119): wraps every element under
the shared child name `name[...]`, hashing each into the set, and binds the
logger to `name`. -/
def LoggedSet.init (name : String) (data : List Value) : Except Err LoggedSet := do
  let ws ← wrapSetElems name [] data
  pure ⟨name, ws, name⟩

/-- `LoggedSet.add` (src 121–123): logs, then `set.add(value)` directly — the
argument is *not* passed through `wrap_logged_config_value`.  `set.add` hashes
the argument: a `TypeError` (after the log) leaves the set unchanged. -/
def LoggedSet.add (s : LoggedSet) (value : Value) :
    List Event × LoggedSet × Option Err :=
  let r : LogRec := ⟨s._logger, .adding s._name value⟩
  if hashable value then
    ([.log r, .mutate], { s with elems := setInsert s.elems value }, Option.none)
  else ([.log r], s, some .typeError)

/-- `LoggedSet.clear` (src 125–127): logs, then `set.clear`. -/
def LoggedSet.clear (s : LoggedSet) : List Event × LoggedSet × Option Err :=
  let r : LogRec := ⟨s._logger, .clearing s._name⟩
  ([.log r, .mutate], { s with elems := [] }, Option.none)

/-- The loop inside `set.difference_update` for a non-set iterable argument:
discard each element in order, hashing it first; a `TypeError` on a later
element keeps the discards already performed. -/
def diffUpdateGo (acc : List Value) : List Value → List Event × List Value × Option Err
  | [] => ([], acc, Option.none)
  | x :: xs =>
      if hashable x then
        let r := diffUpdateGo (setErase acc x) xs
        (Event.mutate :: r.1, r.2.1, r.2.2)
      else ([], acc, some .typeError)

/-- `LoggedSet.difference_update` (src 129–131): logs, then
`set.difference_update(value)`, which iterates the argument discarding each
element. -/
def LoggedSet.difference_update (s : LoggedSet) (value : List Value) :
    List Event × LoggedSet × Option Err :=
  let r : LogRec := ⟨s._logger, .diffUpdating s._name value⟩
  let res := diffUpdateGo s.elems value
  (Event.log r :: res.1, { s with elems := res.2.1 }, res.2.2)

/-- `LoggedSet.discard` (src 133–135): logs, then `set.discard(value)`:
removing an absent value is a no-op, but an unhashable argument still raises
`TypeError` (after the log). -/
def LoggedSet.discard (s : LoggedSet) (value : Value) :
    List Event × LoggedSet × Option Err :=
  let r : LogRec := ⟨s._logger, .discarding s._name value⟩
  if hashable value then
    ([.log r, .mutate], { s with elems := setErase s.elems value }, Option.none)
  else ([.log r], s, some .typeError)

/-- `LoggedSet.pop(value)` (src 137–139): logs, then `super().pop(value)` —
but `set.pop` accepts no argument, so the delegated call raises `TypeError`
unconditionally, whatever the state of the set. -/
def LoggedSet.pop (s : LoggedSet) (value : Value) :
    List Event × LoggedSet × Option Err :=
  let r : LogRec := ⟨s._logger, .poppingVal s._name value⟩
  ([.log r], s, some .typeError)

/-- Calling `pop()` on a `LoggedSet` with no argument: the override's
signature `pop(self, value)` makes the call itself raise `TypeError` (missing
required positional argument) before the body — and so before any log — runs. -/
def LoggedSet.popNoArg (s : LoggedSet) : List Event × LoggedSet × Option Err :=
  ([], s, some .typeError)

/-- `LoggedSet.remove` (src 141–143): logs, then `set.remove(value)`: hashes
the argument (`TypeError` when unhashable), removes it when present, and
raises `KeyError(value)` when absent — each failure after the log, leaving the
set unchanged. -/
def LoggedSet.remove (s : LoggedSet) (value : Value) :
    List Event × LoggedSet × Option Err :=
  let r : LogRec := ⟨s._logger, .removingVal s._name value⟩
  if hashable value then
    if setMem s.elems value then
      ([.log r, .mutate], { s with elems := setErase s.elems value }, Option.none)
    else ([.log r], s, some (.keyErrorVal value))
  else ([.log r], s, some .typeError)

/-- One membership toggle of `set.symmetric_difference_update` (the elements
toggled are already hashable: they come from a freshly built set). -/
def symDiffToggle (acc : List Value) (x : Value) : List Value :=
  if setMem acc x then setErase acc x else acc ++ [x]

/-- `LoggedSet.symmetric_difference_update` (src 145–147): logs, then
`set.symmetric_difference_update(value)`.  For a non-set argument the host
first builds `set(value)` — hashing every element, so a `TypeError` there
leaves the receiver unmutated — and then toggles membership of each element of
that set. -/
def LoggedSet.symmetric_difference_update (s : LoggedSet) (value : List Value) :
    List Event × LoggedSet × Option Err :=
  let r : LogRec := ⟨s._logger, .symDiffUpdating s._name value⟩
  match pySetFold [] value with
  | .error e => ([.log r], s, some e)
  | .ok other =>
      (Event.log r :: other.map (fun _ => Event.mutate),
        { s with elems := other.foldl symDiffToggle s.elems }, Option.none)

/-- The loop inside `set.update` for a non-set iterable argument: hash and add
each element in order; a `TypeError` on a later element keeps the elements
already added. -/
def updateGo (acc : List Value) : List Value → List Event × List Value × Option Err
  | [] => ([], acc, Option.none)
  | x :: xs =>
      if hashable x then
        let r := updateGo (setInsert acc x) xs
        (Event.mutate :: r.1, r.2.1, r.2.2)
      else ([], acc, some .typeError)

/-- `LoggedSet.update` (src 149–151): logs, then `set.update(value)`, which
iterates the argument adding each element — without wrapping any of them. -/
def LoggedSet.update (s : LoggedSet) (value : List Value) :
    List Event × LoggedSet × Option Err :=
  let r : LogRec := ⟨s._logger, .updating s._name value⟩
  let res := updateGo s.elems value
  (Event.log r :: res.1, { s with elems := res.2.1 }, res.2.2)

/-- `LoggedSet.__copy__` (src 153–154): re-run `__init__` on the current
elements under the renamed name (re-wrapping every element). -/
def LoggedSet.copyMagic (s : LoggedSet) : Except Err LoggedSet :=
  LoggedSet.init (s._name ++ "(copy)") s.elems

/-- `LoggedSet.__deepcopy__` (src 156–157): re-run `__init__` on the
deep-copied elements under the renamed name. -/
def LoggedSet.deepcopyMagic (s : LoggedSet) : Except Err LoggedSet := do
  let ys ← pyDeepCopyList s.elems
  LoggedSet.init (s._name ++ "(copy)") ys

/-! ## Type classifiers and plainness predicates -/

/-- `isinstance(value, (list, tuple))`: `LoggedList` subclasses `list`. -/
def Value.isListOrTuple : Value → Bool
  | .vlist _ | .vtuple _ | .llist _ _ => true
  | _ => false

/-- `isinstance(value, set)`: `LoggedSet` subclasses `set`. -/
def Value.isSetInst : Value → Bool
  | .vset _ | .lset _ _ => true
  | _ => false

/-- `isinstance(value, dict)`: a `LoggedConfiguration` is a
`collections.Mapping` but *not* a `dict`. -/
def Value.isDictInst : Value → Bool
  | .vdict _ => true
  | _ => false

def Value.isLoggedList : Value → Bool
  | .llist _ _ => true
  | _ => false

def Value.isLoggedSet : Value → Bool
  | .lset _ _ => true
  | _ => false

def Value.isLoggedConf : Value → Bool
  | .lconf _ _ => true
  | _ => false

def Value.isPrim : Value → Bool
  | .prim _ => true
  | _ => false

def isPrimList (xs : List Value) : Bool := xs.all Value.isPrim

mutual

/-- Plain nested data: keyed mappings, lists, tuples, sets and primitives,
holding no logged container anywhere. -/
def plainValue : Value → Bool
  | .prim _ => true
  | .vlist xs => plainList xs
  | .vtuple xs => plainList xs
  | .vset xs => plainList xs
  | .vdict xs => plainEntries xs
  | _ => false

def plainList : List Value → Bool
  | [] => true
  | x :: xs => plainValue x && plainList xs

def plainEntries : List (String × Value) → Bool
  | [] => true
  | (_, v) :: xs => plainValue v && plainEntries xs

end

mutual

/-- Wrapping succeeds on a value exactly when every `set` the wrapper will
traverse holds only primitive elements: any other element wraps to an
unhashable object (wrapped containers are `LoggedList`/`LoggedSet`/
`LoggedConfiguration` instances, all unhashable).  A `LoggedConfiguration`
argument passes through without being traversed. -/
def wrapSafe : Value → Bool
  | .prim _ => true
  | .lconf _ _ => true
  | .vlist xs => wrapSafeList xs
  | .vtuple xs => wrapSafeList xs
  | .llist _ xs => wrapSafeList xs
  | .vset xs => isPrimList xs
  | .lset _ xs => isPrimList xs
  | .vdict xs => wrapSafeEntries xs

def wrapSafeList : List Value → Bool
  | [] => true
  | x :: xs => wrapSafe x && wrapSafeList xs

def wrapSafeEntries : List (String × Value) → Bool
  | [] => true
  | (_, v) :: xs => wrapSafe v && wrapSafeEntries xs

end

/-- Wrapping a primitive returns it unchanged. -/
theorem wrap_prim (n : String) (p : Prim) :
    wrap_logged_config_value n (.prim p) = .ok (.prim p) := rfl

theorem except_bind_ok {α β} (a : α) (f : α → Except Err β) :
    (Except.ok a >>= f : Except Err β) = f a := rfl

theorem except_bind_err {α β} (e : Err) (f : α → Except Err β) :
    (Except.error e >>= f : Except Err β) = .error e := rfl

/-- `wrapSetElems` over primitive elements folds them in with `setInsert`. -/
theorem wrapSetElems_prims (n : String) :
    ∀ (xs acc : List Value), isPrimList xs = true →
      wrapSetElems n acc xs = .ok (xs.foldl setInsert acc)
  | [], acc, _ => rfl
  | x :: xs, acc, h => by
      obtain ⟨p, rfl⟩ : ∃ p, x = Value.prim p := by
        cases x <;> simp_all [isPrimList, Value.isPrim]
      have hrest : isPrimList xs = true := by simp_all [isPrimList]
      simp [wrapSetElems, wrap_prim, except_bind_ok, hashable, List.foldl,
        wrapSetElems_prims n xs (setInsert acc (.prim p)) hrest]

mutual

/-- On a `wrapSafe` value, wrapping succeeds. -/
theorem wrap_ok_of_safe : ∀ (n : String) (v : Value), wrapSafe v = true →
    ∃ w, wrap_logged_config_value n v = .ok w
  | n, .prim p, _ => ⟨.prim p, rfl⟩
  | n, .lconf m xs, _ => ⟨.lconf m xs, rfl⟩
  | n, .vlist xs, h => by
      obtain ⟨ws, hw⟩ := wrapElems_ok_of_safe n xs (by simpa [wrapSafe] using h)
      exact ⟨.llist n ws, by simp [wrap_logged_config_value, hw]⟩
  | n, .vtuple xs, h => by
      obtain ⟨ws, hw⟩ := wrapElems_ok_of_safe n xs (by simpa [wrapSafe] using h)
      exact ⟨.llist n ws, by simp [wrap_logged_config_value, hw]⟩
  | n, .llist m xs, h => by
      obtain ⟨ws, hw⟩ := wrapElems_ok_of_safe n xs (by simpa [wrapSafe] using h)
      exact ⟨.llist n ws, by simp [wrap_logged_config_value, hw]⟩
  | n, .vset xs, h => by
      refine ⟨.lset n (xs.foldl setInsert []), ?_⟩
      simp [wrap_logged_config_value,
        wrapSetElems_prims n xs [] (by simpa [wrapSafe] using h)]
  | n, .lset m xs, h => by
      refine ⟨.lset n (xs.foldl setInsert []), ?_⟩
      simp [wrap_logged_config_value,
        wrapSetElems_prims n xs [] (by simpa [wrapSafe] using h)]
  | n, .vdict xs, h => by
      obtain ⟨ws, hw⟩ := wrapEntries_ok_of_safe n xs (by simpa [wrapSafe] using h)
      exact ⟨.lconf n ws, by simp [wrap_logged_config_value, hw]⟩

theorem wrapElems_ok_of_safe : ∀ (n : String) (xs : List Value), wrapSafeList xs = true →
    ∃ ws, wrapElems n xs = .ok ws
  | n, [], _ => ⟨[], rfl⟩
  | n, x :: xs, h => by
      have hx : wrapSafe x = true := by simp_all [wrapSafeList]
      have hxs : wrapSafeList xs = true := by simp_all [wrapSafeList]
      obtain ⟨w, hw⟩ := wrap_ok_of_safe (n ++ "[...]") x hx
      obtain ⟨ws, hws⟩ := wrapElems_ok_of_safe n xs hxs
      exact ⟨w :: ws, by simp [wrapElems, hw, hws, except_bind_ok]⟩

theorem wrapEntries_ok_of_safe : ∀ (n : String) (xs : List (String × Value)),
    wrapSafeEntries xs = true → ∃ ws, wrapEntries n xs = .ok ws
  | n, [], _ => ⟨[], rfl⟩
  | n, (k, v) :: xs, h => by
      have hv : wrapSafe v = true := by simp_all [wrapSafeEntries]
      have hxs : wrapSafeEntries xs = true := by simp_all [wrapSafeEntries]
      obtain ⟨w, hw⟩ := wrap_ok_of_safe (n ++ "." ++ k) v hv
      obtain ⟨ws, hws⟩ := wrapEntries_ok_of_safe n xs hxs
      exact ⟨(k, w) :: ws, by simp [wrapEntries, hw, hws, except_bind_ok]⟩

end

/-! ## Claim C4 -/

/-- C4, counterexample: the claim says the wrapping function "accepts all
inputs and never fails", but wrapping the plain set `{(1,)}` raises
`TypeError`: the tuple element is wrapped into a `LoggedList`, which is
unhashable and cannot be re-inserted into the set being built. -/
theorem C4_counterexample :
    wrap_logged_config_value "n" (.vset [.vtuple [.prim (.int 1)]]) =
      .error .typeError := by decide

/-- C4, amended: for every dotted name and every value whose sets (at any
depth the wrapper traverses) hold only primitive elements, wrapping succeeds
and returns a `LoggedList` when the value is a `list` or `tuple`, a
`LoggedSet` when it is a `set`, a `LoggedConfiguration` when it is a `dict`,
and the value itself unchanged otherwise; a set holding a container-shaped
element (such as a tuple) instead raises `TypeError`. -/
theorem C4_wrap_classification (name : String) (v : Value) (h : wrapSafe v = true) :
    ∃ w, wrap_logged_config_value name v = .ok w ∧
      (v.isListOrTuple = true → w.isLoggedList = true) ∧
      (v.isSetInst = true → w.isLoggedSet = true) ∧
      (v.isDictInst = true → w.isLoggedConf = true) ∧
      (v.isListOrTuple = false → v.isSetInst = false → v.isDictInst = false → w = v) := by
  cases v with
  | prim p =>
      exact ⟨.prim p, rfl, by simp [Value.isListOrTuple], by simp [Value.isSetInst],
        by simp [Value.isDictInst], fun _ _ _ => rfl⟩
  | vlist xs =>
      obtain ⟨ws, hw⟩ := wrapElems_ok_of_safe name xs (by simpa [wrapSafe] using h)
      refine ⟨.llist name ws, by simp [wrap_logged_config_value, hw], ?_, ?_, ?_, ?_⟩ <;>
        simp [Value.isListOrTuple, Value.isSetInst, Value.isDictInst, Value.isLoggedList]
  | vtuple xs =>
      obtain ⟨ws, hw⟩ := wrapElems_ok_of_safe name xs (by simpa [wrapSafe] using h)
      refine ⟨.llist name ws, by simp [wrap_logged_config_value, hw], ?_, ?_, ?_, ?_⟩ <;>
        simp [Value.isListOrTuple, Value.isSetInst, Value.isDictInst, Value.isLoggedList]
  | llist m xs =>
      obtain ⟨ws, hw⟩ := wrapElems_ok_of_safe name xs (by simpa [wrapSafe] using h)
      refine ⟨.llist name ws, by simp [wrap_logged_config_value, hw], ?_, ?_, ?_, ?_⟩ <;>
        simp [Value.isListOrTuple, Value.isSetInst, Value.isDictInst, Value.isLoggedList]
  | vset xs =>
      refine ⟨.lset name (xs.foldl setInsert []),
        by simp [wrap_logged_config_value,
          wrapSetElems_prims name xs [] (by simpa [wrapSafe] using h)],
        ?_, ?_, ?_, ?_⟩ <;>
        simp [Value.isListOrTuple, Value.isSetInst, Value.isDictInst, Value.isLoggedSet]
  | lset m xs =>
      refine ⟨.lset name (xs.foldl setInsert []),
        by simp [wrap_logged_config_value,
          wrapSetElems_prims name xs [] (by simpa [wrapSafe] using h)],
        ?_, ?_, ?_, ?_⟩ <;>
        simp [Value.isListOrTuple, Value.isSetInst, Value.isDictInst, Value.isLoggedSet]
  | vdict xs =>
      obtain ⟨ws, hw⟩ := wrapEntries_ok_of_safe name xs (by simpa [wrapSafe] using h)
      refine ⟨.lconf name ws, by simp [wrap_logged_config_value, hw], ?_, ?_, ?_, ?_⟩ <;>
        simp [Value.isListOrTuple, Value.isSetInst, Value.isDictInst, Value.isLoggedConf]
  | lconf m xs =>
      exact ⟨.lconf m xs, rfl, by simp [Value.isListOrTuple], by simp [Value.isSetInst],
        by simp [Value.isDictInst], fun _ _ _ => rfl⟩

/-- C4, witness at a concrete input. -/
theorem C4_witness :
    wrapSafe (.vdict [("a", .vlist [.prim (.int 1)])]) = true ∧
    (∃ w, wrap_logged_config_value "n" (.vdict [("a", .vlist [.prim (.int 1)])]) = .ok w ∧
      ((Value.vdict [("a", .vlist [.prim (.int 1)])]).isListOrTuple = true →
        w.isLoggedList = true) ∧
      ((Value.vdict [("a", .vlist [.prim (.int 1)])]).isSetInst = true →
        w.isLoggedSet = true) ∧
      ((Value.vdict [("a", .vlist [.prim (.int 1)])]).isDictInst = true →
        w.isLoggedConf = true) ∧
      ((Value.vdict [("a", .vlist [.prim (.int 1)])]).isListOrTuple = false →
        (Value.vdict [("a", .vlist [.prim (.int 1)])]).isSetInst = false →
        (Value.vdict [("a", .vlist [.prim (.int 1)])]).isDictInst = false →
        w = .vdict [("a", .vlist [.prim (.int 1)])])) :=
  ⟨by decide, C4_wrap_classification "n" (.vdict [("a", .vlist [.prim (.int 1)])]) (by decide)⟩

/-! ## Claim C5 -/

/-- C5: the spec's `pop()` contract ("collection empty" error exactly when the
set is empty, otherwise remove and return an element) is unimplementable by
the code as written: the override's signature is `pop(self, value)` and it
delegates to `set.pop(value)`, which accepts no argument — so calling `pop(v)`
raises `TypeError` even on a nonempty set (after logging), and calling `pop()`
raises `TypeError` at argument binding, before the body runs.  Evaluated here
at the nonempty set `LoggedSet('s', {1})`, where the claim demands a returned
element. -/
theorem C5_pop_type_error :
    ((LoggedSet.popNoArg ⟨"s", [.prim (.int 1)], "s"⟩ =
        ([], ⟨"s", [.prim (.int 1)], "s"⟩, some .typeError)) ∧
      (LoggedSet.pop ⟨"s", [.prim (.int 1)], "s"⟩ (.prim (.int 1))).2.2 =
        some .typeError) ∧
    ∀ (s : LoggedSet) (v : Value),
      (s.pop v).2.2 = some Err.typeError ∧ (s.popNoArg).2.2 = some Err.typeError :=
  ⟨by decide, fun _ _ => ⟨rfl, rfl⟩⟩

/-! ## Claim C7 -/

theorem confInit_fields {n : String} {d : List (String × Value)}
    {c : LoggedConfiguration} (h : LoggedConfiguration.init n d = .ok c) :
    c._name = n ∧ c._logger = n := by
  unfold LoggedConfiguration.init at h
  cases hw : wrapEntries n d with
  | error e => rw [hw] at h; simp [except_bind_err] at h
  | ok ws =>
      rw [hw] at h
      simp [except_bind_ok, pure, Except.pure] at h
      rw [← h]
      exact ⟨rfl, rfl⟩

theorem listInit_fields {n : String} {d : List Value} {c : LoggedList}
    (h : LoggedList.init n d = .ok c) : c._name = n ∧ c._logger = n := by
  unfold LoggedList.init at h
  cases hw : wrapElems n d with
  | error e => rw [hw] at h; simp [except_bind_err] at h
  | ok ws =>
      rw [hw] at h
      simp [except_bind_ok, pure, Except.pure] at h
      rw [← h]
      exact ⟨rfl, rfl⟩

theorem setInit_fields {n : String} {d : List Value} {c : LoggedSet}
    (h : LoggedSet.init n d = .ok c) : c._name = n ∧ c._logger = n := by
  unfold LoggedSet.init at h
  cases hw : wrapSetElems n [] d with
  | error e => rw [hw] at h; simp [except_bind_err] at h
  | ok ws =>
      rw [hw] at h
      simp [except_bind_ok, pure, Except.pure] at h
      rw [← h]
      exact ⟨rfl, rfl⟩

/-- C7: whenever a shallow or deep copy of any of the three logged containers
is successfully built, the copy is a new container (with its own logger
channel) named `<original-name>(copy)` — including `copy(deep=...)` on a
mapping. -/
theorem C7_copy_renamed :
    (∀ (m c : LoggedConfiguration), m.copyMagic = .ok c →
        c._name = m._name ++ "(copy)" ∧ c._logger = m._name ++ "(copy)") ∧
    (∀ (m c : LoggedConfiguration), m.deepcopyMagic = .ok c →
        c._name = m._name ++ "(copy)" ∧ c._logger = m._name ++ "(copy)") ∧
    (∀ (m c : LoggedConfiguration) (deep : Bool), m.copy deep = .ok c →
        c._name = m._name ++ "(copy)" ∧ c._logger = m._name ++ "(copy)") ∧
    (∀ (l c : LoggedList), l.copyMagic = .ok c →
        c._name = l._name ++ "(copy)" ∧ c._logger = l._name ++ "(copy)") ∧
    (∀ (l c : LoggedList), l.deepcopyMagic = .ok c →
        c._name = l._name ++ "(copy)" ∧ c._logger = l._name ++ "(copy)") ∧
    (∀ (s c : LoggedSet), s.copyMagic = .ok c →
        c._name = s._name ++ "(copy)" ∧ c._logger = s._name ++ "(copy)") ∧
    (∀ (s c : LoggedSet), s.deepcopyMagic = .ok c →
        c._name = s._name ++ "(copy)" ∧ c._logger = s._name ++ "(copy)") := by
  have hdc : ∀ (m c : LoggedConfiguration), m.deepcopyMagic = .ok c →
      c._name = m._name ++ "(copy)" ∧ c._logger = m._name ++ "(copy)" := by
    intro m c h
    unfold LoggedConfiguration.deepcopyMagic at h
    cases hd : pyDeepCopyEntries m._data with
    | error e => rw [hd] at h; simp [except_bind_err] at h
    | ok d => rw [hd] at h; rw [except_bind_ok] at h; exact confInit_fields h
  refine ⟨fun m c h => confInit_fields h, hdc, ?_,
    fun l c h => listInit_fields h, ?_,
    fun s c h => setInit_fields h, ?_⟩
  · intro m c deep h
    cases deep with
    | false => exact confInit_fields h
    | true => exact hdc m c h
  · intro l c h
    unfold LoggedList.deepcopyMagic at h
    cases hd : pyDeepCopyList l.elems with
    | error e => rw [hd] at h; simp [except_bind_err] at h
    | ok d => rw [hd] at h; rw [except_bind_ok] at h; exact listInit_fields h
  · intro s c h
    unfold LoggedSet.deepcopyMagic at h
    cases hd : pyDeepCopyList s.elems with
    | error e => rw [hd] at h; simp [except_bind_err] at h
    | ok d => rw [hd] at h; rw [except_bind_ok] at h; exact setInit_fields h

/-- C7, witness at concrete containers (shallow and deep copies of a mapping,
a list and a set holding one entry each). -/
theorem C7_witness :
    ((⟨"n(copy)", [("a", .prim (.int 1))], "n(copy)"⟩ : LoggedConfiguration)._name =
        "n" ++ "(copy)" ∧
      (⟨"n(copy)", [("a", .prim (.int 1))], "n(copy)"⟩ : LoggedConfiguration)._logger =
        "n" ++ "(copy)") ∧
    ((⟨"n(copy)", [.prim (.int 1)], "n(copy)"⟩ : LoggedList)._name = "n" ++ "(copy)" ∧
      (⟨"n(copy)", [.prim (.int 1)], "n(copy)"⟩ : LoggedList)._logger = "n" ++ "(copy)") ∧
    ((⟨"n(copy)", [.prim (.int 1)], "n(copy)"⟩ : LoggedSet)._name = "n" ++ "(copy)" ∧
      (⟨"n(copy)", [.prim (.int 1)], "n(copy)"⟩ : LoggedSet)._logger = "n" ++ "(copy)") :=
  ⟨C7_copy_renamed.1 ⟨"n", [("a", .prim (.int 1))], "n"⟩ _ (by decide),
    C7_copy_renamed.2.2.2.2.1 ⟨"n", [.prim (.int 1)], "n"⟩ _ (by decide),
    C7_copy_renamed.2.2.2.2.2.2 ⟨"n", [.prim (.int 1)], "n"⟩ _ (by decide)⟩

/-! ## Claim C10 -/

/-- C10, counterexample: attribute-assignment of the reserved name `_data`
emits no log record but does *not* leave the keyed store unchanged — it
replaces the store itself (`self._data = value`). -/
theorem C10_counterexample :
    (LoggedConfiguration.setAttr ⟨"n", [("a", .prim (.int 1))], "n"⟩ "_data"
        (.vdict [])).1 = [] ∧
    (LoggedConfiguration.setAttr ⟨"n", [("a", .prim (.int 1))], "n"⟩ "_data"
        (.vdict [])).2.1._data ≠ [("a", .prim (.int 1))] := by decide

/-- C10, amended: attribute-assignment with a reserved name (`_name`, `_data`,
`_logger`) writes the instance field directly and emits no log record; for
`_name` and `_logger` the keyed store is unchanged, while assigning `_data`
replaces the keyed store with the assigned mapping's entries.  Assignment with
any other name is exactly the item-set operation (which logs once, wraps, and
stores under that key). -/
theorem C10_setattr (m : LoggedConfiguration) (attr : String) (v : Value) :
    (attr ∈ reservedAttrs →
      (m.setAttr attr v).1 = [] ∧
      (m.setAttr attr v).2.1 = m.rawSetAttr attr v ∧
      (m.setAttr attr v).2.2 = Option.none ∧
      ((attr = "_name" ∨ attr = "_logger") → (m.setAttr attr v).2.1._data = m._data) ∧
      (attr = "_data" → ∀ d, (m.setAttr attr (.vdict d)).2.1._data = d)) ∧
    (attr ∉ reservedAttrs → m.setAttr attr v = m.setItem attr v) := by
  constructor
  · intro hres
    have hs : m.setAttr attr v = ([], m.rawSetAttr attr v, Option.none) := by
      unfold LoggedConfiguration.setAttr
      simp [hres]
    refine ⟨by rw [hs], by rw [hs], by rw [hs], ?_, ?_⟩
    · rintro (rfl | rfl)
      · rw [hs]
        cases v <;> simp [LoggedConfiguration.rawSetAttr]
        rename_i p
        cases p <;> simp [LoggedConfiguration.rawSetAttr]
      · rw [hs]; simp [LoggedConfiguration.rawSetAttr]
    · rintro rfl d
      have hs' : m.setAttr "_data" (Value.vdict d) = ([], m.rawSetAttr "_data" (.vdict d),
          Option.none) := by
        unfold LoggedConfiguration.setAttr
        simp [reservedAttrs]
      rw [hs']
      simp [LoggedConfiguration.rawSetAttr]
  · intro hres
    unfold LoggedConfiguration.setAttr
    simp [hres]

/-- C10, witness: the reserved branch at `_name` and the routed branch at a
plain key, on a concrete mapping. -/
theorem C10_witness :
    (((⟨"n", [("a", .prim (.int 1))], "n"⟩ : LoggedConfiguration).setAttr "_name"
          (.prim (.str "m"))).1 = [] ∧
      ((⟨"n", [("a", .prim (.int 1))], "n"⟩ : LoggedConfiguration).setAttr "_name"
          (.prim (.str "m"))).2.1 =
        (⟨"n", [("a", .prim (.int 1))], "n"⟩ : LoggedConfiguration).rawSetAttr "_name"
          (.prim (.str "m")) ∧
      ((⟨"n", [("a", .prim (.int 1))], "n"⟩ : LoggedConfiguration).setAttr "_name"
          (.prim (.str "m"))).2.2 = Option.none ∧
      (("_name" = "_name" ∨ "_name" = "_logger") →
        ((⟨"n", [("a", .prim (.int 1))], "n"⟩ : LoggedConfiguration).setAttr "_name"
            (.prim (.str "m"))).2.1._data = [("a", .prim (.int 1))]) ∧
      ("_name" = "_data" → ∀ d,
        ((⟨"n", [("a", .prim (.int 1))], "n"⟩ : LoggedConfiguration).setAttr "_name"
            (.vdict d)).2.1._data = d)) ∧
    ((⟨"n", [("a", .prim (.int 1))], "n"⟩ : LoggedConfiguration).setAttr "b"
        (.prim (.int 2)) =
      (⟨"n", [("a", .prim (.int 1))], "n"⟩ : LoggedConfiguration).setItem "b"
        (.prim (.int 2))) :=
  ⟨(C10_setattr ⟨"n", [("a", .prim (.int 1))], "n"⟩ "_name" (.prim (.str "m"))).1
      (by decide),
    (C10_setattr ⟨"n", [("a", .prim (.int 1))], "n"⟩ "b" (.prim (.int 2))).2
      (by decide)⟩

/-! ## Claim C6 -/

/-- C6, counterexample: in the mapping built from `{'_name': 5}` the key
`'_name'` is present in the store, but attribute-get returns the `_name`
instance field (the container's name, found before `__getattr__` runs) while
key-get returns the stored value `5` — not identical values. -/
theorem C6_counterexample :
    LoggedConfiguration.init "n" [("_name", .prim (.int 5))] =
      .ok ⟨"n", [("_name", .prim (.int 5))], "n"⟩ ∧
    (LoggedConfiguration.getItem ⟨"n", [("_name", .prim (.int 5))], "n"⟩ "_name").2 =
      .ok (.prim (.int 5)) ∧
    (LoggedConfiguration.getAttr ⟨"n", [("_name", .prim (.int 5))], "n"⟩ "_name").2 =
      .ok (.fieldName "n") ∧
    AttrVal.fieldName "n" ≠ AttrVal.stored (.prim (.int 5)) := by decide

/-- C6, amended: for every key that is not shadowed by an instance attribute
(`_name`, `_data`, `_logger`) or a class attribute (the methods), attribute-get
and key-get return the same stored value when the key is present; when it is
absent, attribute-get raises `AttributeError` while key-get raises `KeyError`,
two distinct error kinds. -/
theorem C6_attr_vs_key (m : LoggedConfiguration) (key : String)
    (h1 : key ∉ reservedAttrs) (h2 : key ∉ classAttrs) :
    (∀ v, dictGet m._data key = some v →
      (m.getAttr key).2 = .ok (.stored v) ∧ (m.getItem key).2 = .ok v) ∧
    (dictGet m._data key = Option.none →
      (m.getAttr key).2 = .error (.attributeError key) ∧
      (m.getItem key).2 = .error (.keyError key)) ∧
    Err.attributeError key ≠ Err.keyError key := by
  simp only [reservedAttrs, List.mem_cons, List.not_mem_nil, or_false, not_or] at h1
  refine ⟨?_, ?_, by simp⟩
  · intro v hv
    constructor
    · simp [LoggedConfiguration.getAttr, h1.1, h1.2.1, h1.2.2, h2, hv]
    · simp [LoggedConfiguration.getItem, hv]
  · intro hv
    constructor
    · simp [LoggedConfiguration.getAttr, h1.1, h1.2.1, h1.2.2, h2, hv]
    · simp [LoggedConfiguration.getItem, hv]

/-- C6, witness: a present plain key (`"a"`) and an absent plain key (`"b"`)
on a concrete mapping. -/
theorem C6_witness :
    ((LoggedConfiguration.getAttr ⟨"n", [("a", .prim (.int 1))], "n"⟩ "a").2 =
        .ok (.stored (.prim (.int 1))) ∧
      (LoggedConfiguration.getItem ⟨"n", [("a", .prim (.int 1))], "n"⟩ "a").2 =
        .ok (.prim (.int 1))) ∧
    ((LoggedConfiguration.getAttr ⟨"n", [("a", .prim (.int 1))], "n"⟩ "b").2 =
        .error (.attributeError "b") ∧
      (LoggedConfiguration.getItem ⟨"n", [("a", .prim (.int 1))], "n"⟩ "b").2 =
        .error (.keyError "b")) :=
  ⟨(C6_attr_vs_key ⟨"n", [("a", .prim (.int 1))], "n"⟩ "a" (by decide) (by decide)).1
      (.prim (.int 1)) (by decide),
    (C6_attr_vs_key ⟨"n", [("a", .prim (.int 1))], "n"⟩ "b" (by decide) (by decide)).2.1
      (by decide)⟩

/-! ## Claim C8 -/

def isLogEvent : Event → Bool
  | .log _ => true
  | .mutate => false

/-- A method-call trace has exactly one log record and it comes first — in
particular before every `mutate` event. -/
def oneLogFirst : List Event → Bool
  | Event.log _ :: rest => rest.all (fun e => !isLogEvent e)
  | _ => false

def exceptToOpt : Except Err Value → Option Err
  | .ok _ => Option.none
  | .error e => some e

/-- The mutating operations of `LoggedConfiguration`: item-set and item-delete
(attribute-assignment with a non-reserved name routes to item-set, see
`LoggedConfiguration.setAttr`). -/
inductive ConfMutOp where
  | setItem (key : String) (v : Value)
  | delItem (key : String)

def ConfMutOp.apply (m : LoggedConfiguration) :
    ConfMutOp → List Event × LoggedConfiguration × Option Err
  | .setItem k v => m.setItem k v
  | .delItem k => m.delItem k

/-- The mutating operations `LoggedList` overrides. -/
inductive ListMutOp where
  | append (v : Value)
  | insert (i : Int) (v : Value)
  | remove (v : Value)
  | pop (i : Int)
  | clear
  | extend (vs : List Value)

def ListMutOp.apply (l : LoggedList) : ListMutOp → List Event × LoggedList × Option Err
  | .append v => l.append v
  | .insert i v => l.insert i v
  | .remove v => l.remove v
  | .pop i => ((l.pop i).1, (l.pop i).2.1, exceptToOpt (l.pop i).2.2)
  | .clear => l.clear
  | .extend vs => l.extend vs

/-- The mutating operations `LoggedSet` overrides.  `pop` carries the argument
its override requires; a zero-argument `pop()` call never enters the method
body (`TypeError` at binding, see `LoggedSet.popNoArg` and claim C5). -/
inductive SetMutOp where
  | add (v : Value)
  | clear
  | difference_update (vs : List Value)
  | discard (v : Value)
  | pop (v : Value)
  | remove (v : Value)
  | symmetric_difference_update (vs : List Value)
  | update (vs : List Value)

def SetMutOp.apply (s : LoggedSet) : SetMutOp → List Event × LoggedSet × Option Err
  | .add v => s.add v
  | .clear => s.clear
  | .difference_update vs => s.difference_update vs
  | .discard v => s.discard v
  | .pop v => s.pop v
  | .remove v => s.remove v
  | .symmetric_difference_update vs => s.symmetric_difference_update vs
  | .update vs => s.update vs

theorem extendGo_no_log (n : String) : ∀ (xs acc : List Value),
    ((extendGo n acc xs).1).all (fun e => !isLogEvent e) = true
  | [], _ => rfl
  | x :: xs, acc => by
      unfold extendGo
      cases hw : wrap_logged_config_value (n ++ "[...]") x with
      | error e => simp [hw]
      | ok w => simpa [hw, isLogEvent] using extendGo_no_log n xs (acc ++ [w])

theorem diffUpdateGo_no_log : ∀ (xs acc : List Value),
    ((diffUpdateGo acc xs).1).all (fun e => !isLogEvent e) = true
  | [], _ => rfl
  | x :: xs, acc => by
      unfold diffUpdateGo
      cases hx : hashable x with
      | false => simp [hx]
      | true => simpa [hx, isLogEvent] using diffUpdateGo_no_log xs (setErase acc x)

theorem updateGo_no_log : ∀ (xs acc : List Value),
    ((updateGo acc xs).1).all (fun e => !isLogEvent e) = true
  | [], _ => rfl
  | x :: xs, acc => by
      unfold updateGo
      cases hx : hashable x with
      | false => simp [hx]
      | true => simpa [hx, isLogEvent] using updateGo_no_log xs (setInsert acc x)

/-- C8: every mutating method overridden by the three logged containers emits
exactly one informational log record, as the first event of the call — before
any underlying state change — whether the call succeeds or fails afterwards;
the read-only operations (key-get, attribute-get, contains, length, key
iteration) emit no record at all. -/
theorem C8_one_log_first (m : LoggedConfiguration) (l : LoggedList) (s : LoggedSet) :
    (∀ op : ConfMutOp, oneLogFirst (ConfMutOp.apply m op).1 = true) ∧
    (∀ op : ListMutOp, oneLogFirst (ListMutOp.apply l op).1 = true) ∧
    (∀ op : SetMutOp, oneLogFirst (SetMutOp.apply s op).1 = true) ∧
    (∀ k, (m.getItem k).1 = []) ∧ (∀ a, (m.getAttr a).1 = []) ∧
    (∀ k, (m.containsKey k).1 = []) ∧ m.len.1 = [] ∧ m.iterKeys.1 = [] := by
  refine ⟨?_, ?_, ?_, fun _ => rfl, fun _ => rfl, fun _ => rfl, rfl, rfl⟩
  · intro op
    cases op with
    | setItem k v =>
        unfold ConfMutOp.apply LoggedConfiguration.setItem
        cases hw : wrap_logged_config_value (m._name ++ "." ++ k) v <;>
          simp [hw, oneLogFirst, isLogEvent]
    | delItem k =>
        unfold ConfMutOp.apply LoggedConfiguration.delItem
        cases hd : dictDel m._data k <;> simp [hd, oneLogFirst, isLogEvent]
  · intro op
    cases op with
    | append v =>
        unfold ListMutOp.apply LoggedList.append
        cases hw : wrap_logged_config_value (l._name ++ "[...]") v <;>
          simp [hw, oneLogFirst, isLogEvent]
    | insert i v =>
        unfold ListMutOp.apply LoggedList.insert
        cases hw : wrap_logged_config_value (l._name ++ "[...]") v <;>
          simp [hw, oneLogFirst, isLogEvent]
    | remove v =>
        unfold ListMutOp.apply LoggedList.remove
        cases hr : listRemoveFirst l.elems v <;> simp [hr, oneLogFirst, isLogEvent]
    | pop i =>
        unfold ListMutOp.apply LoggedList.pop
        cases hp : listPopAt l.elems i <;> simp [hp, oneLogFirst, isLogEvent]
    | clear => simp [ListMutOp.apply, LoggedList.clear, oneLogFirst, isLogEvent]
    | extend vs =>
        unfold ListMutOp.apply LoggedList.extend
        simpa [oneLogFirst] using extendGo_no_log l._name vs l.elems
  · intro op
    cases op with
    | add v =>
        unfold SetMutOp.apply LoggedSet.add
        cases hv : hashable v <;> simp [hv, oneLogFirst, isLogEvent]
    | clear => simp [SetMutOp.apply, LoggedSet.clear, oneLogFirst, isLogEvent]
    | difference_update vs =>
        unfold SetMutOp.apply LoggedSet.difference_update
        simpa [oneLogFirst] using diffUpdateGo_no_log vs s.elems
    | discard v =>
        unfold SetMutOp.apply LoggedSet.discard
        cases hv : hashable v <;> simp [hv, oneLogFirst, isLogEvent]
    | pop v => simp [SetMutOp.apply, LoggedSet.pop, oneLogFirst, isLogEvent]
    | remove v =>
        unfold SetMutOp.apply LoggedSet.remove
        cases hv : hashable v <;> cases hm : setMem s.elems v <;>
          simp [hv, hm, oneLogFirst, isLogEvent]
    | symmetric_difference_update vs =>
        unfold SetMutOp.apply LoggedSet.symmetric_difference_update
        cases hp : pySetFold [] vs <;>
          simp [hp, oneLogFirst, isLogEvent, List.all_eq_true, List.mem_replicate]
    | update vs =>
        unfold SetMutOp.apply LoggedSet.update
        simpa [oneLogFirst] using updateGo_no_log vs s.elems

/-! ## Claim C1 -/

/-- No two structurally equal elements — the defining property of the element
list of a host `set`. -/
def nodupB : List Value → Bool
  | [] => true
  | x :: xs => !setMem xs x && nodupB xs

mutual

/-- Plain data that flattening maps back to itself: primitives, lists and
keyed mappings of such data, and sets of distinct primitive elements (the only
sets construction accepts, since wrapped non-primitives are unhashable).
Tuples are excluded — they wrap to `LoggedList` and flatten to plain lists. -/
def plainRT : Value → Bool
  | .prim _ => true
  | .vlist xs => plainRTList xs
  | .vdict xs => plainRTEntries xs
  | .vset xs => isPrimList xs && nodupB xs
  | _ => false

def plainRTList : List Value → Bool
  | [] => true
  | x :: xs => plainRT x && plainRTList xs

def plainRTEntries : List (String × Value) → Bool
  | [] => true
  | (_, v) :: xs => plainRT v && plainRTEntries xs

end

theorem setMem_of_mem {xs : List Value} {x : Value} (h : x ∈ xs) :
    setMem xs x = true := by
  simp [setMem, List.any_eq_true]
  exact h

theorem unwrapList_prims : ∀ xs : List Value, isPrimList xs = true →
    unwrapList false xs = xs
  | [], _ => rfl
  | x :: xs, h => by
      obtain ⟨p, rfl⟩ : ∃ p, x = Value.prim p := by
        cases x <;> simp_all [isPrimList, Value.isPrim]
      have hrest : isPrimList xs = true := by simp_all [isPrimList]
      simp [unwrapList, _unwrap, unwrapList_prims xs hrest]

/-- Folding distinct, fresh elements into a set store appends them in order. -/
theorem foldl_setInsert_eq : ∀ (xs acc : List Value), nodupB xs = true →
    (∀ x ∈ xs, setMem acc x = false) → xs.foldl setInsert acc = acc ++ xs
  | [], acc, _, _ => by simp
  | x :: xs, acc, hnd, hfresh => by
      have hx : setMem acc x = false := hfresh x (by simp)
      have hnd' : nodupB (x :: xs) = true := hnd
      simp only [nodupB, Bool.and_eq_true, Bool.not_eq_true'] at hnd'
      have hfresh' : ∀ y ∈ xs, setMem (acc ++ [x]) y = false := by
        intro y hy
        have h1 : setMem acc y = false := hfresh y (by simp [hy])
        have h2 : ¬(x = y) := by
          intro he
          rw [he] at hnd'
          rw [setMem_of_mem hy] at hnd'
          exact absurd hnd'.1 (by simp)
        simp [setMem, List.any_eq_true] at h1 ⊢
        exact ⟨h1, h2⟩
      have step : (x :: xs).foldl setInsert acc = xs.foldl setInsert (acc ++ [x]) := by
        simp [List.foldl, setInsert, hx]
      rw [step, foldl_setInsert_eq xs (acc ++ [x]) hnd'.2 hfresh']
      simp

mutual

/-- Wrapping then flattening is the identity on round-trippable plain data. -/
theorem wrap_unwrap_id : ∀ (n : String) (v : Value), plainRT v = true →
    ∃ w, wrap_logged_config_value n v = .ok w ∧ _unwrap false w = v
  | n, .prim p, _ => ⟨.prim p, rfl, rfl⟩
  | n, .vlist xs, h => by
      obtain ⟨ws, hw, hu⟩ := wrapElems_unwrap_id n xs (by simpa [plainRT] using h)
      exact ⟨.llist n ws, by simp [wrap_logged_config_value, hw],
        by simp [_unwrap, hu]⟩
  | n, .vdict xs, h => by
      obtain ⟨ws, hw, hu⟩ := wrapEntries_unwrap_id n xs (by simpa [plainRT] using h)
      exact ⟨.lconf n ws, by simp [wrap_logged_config_value, hw],
        by simp [_unwrap, hu]⟩
  | n, .vset xs, h => by
      have h1 : isPrimList xs = true := by
        simp only [plainRT, Bool.and_eq_true] at h; exact h.1
      have h2 : nodupB xs = true := by
        simp only [plainRT, Bool.and_eq_true] at h; exact h.2
      refine ⟨.lset n (xs.foldl setInsert []),
        by simp [wrap_logged_config_value, wrapSetElems_prims n xs [] h1], ?_⟩
      rw [foldl_setInsert_eq xs [] h2 (fun x _ => rfl)]
      simp [_unwrap, unwrapList_prims xs h1]
  | _, .vtuple _, h => by simp [plainRT] at h
  | _, .llist _ _, h => by simp [plainRT] at h
  | _, .lset _ _, h => by simp [plainRT] at h
  | _, .lconf _ _, h => by simp [plainRT] at h

theorem wrapElems_unwrap_id : ∀ (n : String) (xs : List Value), plainRTList xs = true →
    ∃ ws, wrapElems n xs = .ok ws ∧ unwrapList false ws = xs
  | _, [], _ => ⟨[], rfl, rfl⟩
  | n, x :: xs, h => by
      have hx : plainRT x = true := by simp_all [plainRTList]
      have hxs : plainRTList xs = true := by simp_all [plainRTList]
      obtain ⟨w, hw, hu⟩ := wrap_unwrap_id (n ++ "[...]") x hx
      obtain ⟨ws, hws, hus⟩ := wrapElems_unwrap_id n xs hxs
      exact ⟨w :: ws, by simp [wrapElems, hw, hws, except_bind_ok],
        by simp [unwrapList, hu, hus]⟩

theorem wrapEntries_unwrap_id : ∀ (n : String) (xs : List (String × Value)),
    plainRTEntries xs = true →
    ∃ ws, wrapEntries n xs = .ok ws ∧ unwrapEntries false ws = xs
  | _, [], _ => ⟨[], rfl, rfl⟩
  | n, (k, v) :: xs, h => by
      have hv : plainRT v = true := by simp_all [plainRTEntries]
      have hxs : plainRTEntries xs = true := by simp_all [plainRTEntries]
      obtain ⟨w, hw, hu⟩ := wrap_unwrap_id (n ++ "." ++ k) v hv
      obtain ⟨ws, hws, hus⟩ := wrapEntries_unwrap_id n xs hxs
      exact ⟨(k, w) :: ws, by simp [wrapEntries, hw, hws, except_bind_ok],
        by simp [unwrapEntries, hu, hus]⟩

end

/-- C1, counterexample: the data `{'k': (1,)}` holds a tuple; the wrapper
turns the tuple into a `LoggedList`, which `_unwrap` flattens to a plain
*list*, so the round trip returns `{'k': [1]}`, which the host does not
consider equal to `{'k': (1,)}` (a list never equals a tuple — an ordered,
not unordered, comparison). -/
theorem C1_counterexample :
    (LoggedConfiguration.init "N" [("k", .vtuple [.prim (.int 1)])]).map
        LoggedConfiguration.to_dict = .ok (.vdict [("k", .vlist [.prim (.int 1)])]) ∧
    Value.vdict [("k", .vlist [.prim (.int 1)])] ≠
      .vdict [("k", .vtuple [.prim (.int 1)])] := by decide

/-- C1, amended: for every name `N` and every plain nested `D` built from
keyed mappings, lists, sets-of-distinct-primitives and primitives — but
containing no tuple — flattening the logged mapping constructed from `N` and
`D` returns exactly `D` (set iteration order is preserved by the model, which
is the appropriate unordered-collection treatment).  A tuple inside `D` comes
back as a list instead. -/
theorem C1_roundtrip (N : String) (d : List (String × Value))
    (h : plainRT (.vdict d) = true) :
    (LoggedConfiguration.init N d).map LoggedConfiguration.to_dict =
      .ok (.vdict d) := by
  obtain ⟨ws, hw, hu⟩ := wrapEntries_unwrap_id N d (by simpa [plainRT] using h)
  simp [LoggedConfiguration.init, hw, except_bind_ok, pure, Except.pure, Except.map,
    LoggedConfiguration.to_dict, _unwrap, hu]

/-- C1, witness at `{'servers': ['a'], 'limits': {'max': 5}, 'flags': {1, 2}}`. -/
theorem C1_witness :
    plainRT (.vdict [("servers", .vlist [.prim (.str "a")]),
      ("limits", .vdict [("max", .prim (.int 5))]),
      ("flags", .vset [.prim (.int 1), .prim (.int 2)])]) = true ∧
    (LoggedConfiguration.init "app" [("servers", .vlist [.prim (.str "a")]),
        ("limits", .vdict [("max", .prim (.int 5))]),
        ("flags", .vset [.prim (.int 1), .prim (.int 2)])]).map
      LoggedConfiguration.to_dict =
      .ok (.vdict [("servers", .vlist [.prim (.str "a")]),
        ("limits", .vdict [("max", .prim (.int 5))]),
        ("flags", .vset [.prim (.int 1), .prim (.int 2)])]) :=
  ⟨by decide, C1_roundtrip "app" [("servers", .vlist [.prim (.str "a")]),
      ("limits", .vdict [("max", .prim (.int 5))]),
      ("flags", .vset [.prim (.int 1), .prim (.int 2)])] (by decide)⟩

/-! ## Claim C2 -/

mutual

/-- The recursive-wrapping invariant for one stored value: a primitive, or a
logged container all of whose children recursively satisfy it.  A plain
container (dict/list/tuple/set) stored anywhere violates it. -/
def wrappedValue : Value → Bool
  | .prim _ => true
  | .llist _ xs => wrappedList xs
  | .lset _ xs => wrappedList xs
  | .lconf _ xs => wrappedEntries xs
  | _ => false

def wrappedList : List Value → Bool
  | [] => true
  | x :: xs => wrappedValue x && wrappedList xs

def wrappedEntries : List (String × Value) → Bool
  | [] => true
  | (_, v) :: xs => wrappedValue v && wrappedEntries xs

end

/-- The store invariant of each container: every stored value (entry value or
element) satisfies `wrappedValue`. -/
def LoggedConfiguration.wfStore (m : LoggedConfiguration) : Bool :=
  wrappedEntries m._data

def LoggedList.wfStore (l : LoggedList) : Bool := wrappedList l.elems

def LoggedSet.wfStore (s : LoggedSet) : Bool := wrappedList s.elems

theorem wrappedList_iff : ∀ xs : List Value,
    wrappedList xs = true ↔ ∀ x ∈ xs, wrappedValue x = true
  | [] => by simp [wrappedList]
  | x :: xs => by simp [wrappedList, wrappedList_iff xs]

theorem wrappedEntries_iff : ∀ xs : List (String × Value),
    wrappedEntries xs = true ↔ ∀ kv ∈ xs, wrappedValue kv.2 = true
  | [] => by simp [wrappedEntries]
  | (k, v) :: xs => by simp [wrappedEntries, wrappedEntries_iff xs]

mutual

/-- Wrapping plain data produces a value satisfying the invariant. -/
theorem wrap_wrapped : ∀ (n : String) (v w : Value), plainValue v = true →
    wrap_logged_config_value n v = .ok w → wrappedValue w = true
  | n, .prim p, w, _, hw => by
      simp [wrap_logged_config_value, pure, Except.pure] at hw
      rw [← hw]; rfl
  | n, .vlist xs, w, hp, hw => by
      rw [wrap_logged_config_value] at hw
      cases hws : wrapElems n xs with
      | error e => rw [hws] at hw; simp at hw
      | ok ws =>
          rw [hws] at hw; simp at hw
          rw [← hw]
          simpa [wrappedValue] using
            wrapElems_wrapped n xs ws (by simpa [plainValue] using hp) hws
  | n, .vtuple xs, w, hp, hw => by
      rw [wrap_logged_config_value] at hw
      cases hws : wrapElems n xs with
      | error e => rw [hws] at hw; simp at hw
      | ok ws =>
          rw [hws] at hw; simp at hw
          rw [← hw]
          simpa [wrappedValue] using
            wrapElems_wrapped n xs ws (by simpa [plainValue] using hp) hws
  | n, .vset xs, w, hp, hw => by
      rw [wrap_logged_config_value] at hw
      cases hws : wrapSetElems n [] xs with
      | error e => rw [hws] at hw; simp at hw
      | ok ws =>
          rw [hws] at hw; simp at hw
          rw [← hw]
          simpa [wrappedValue] using
            wrapSetElems_wrapped n xs [] ws (by simpa [plainValue] using hp) rfl hws
  | n, .vdict xs, w, hp, hw => by
      rw [wrap_logged_config_value] at hw
      cases hws : wrapEntries n xs with
      | error e => rw [hws] at hw; simp at hw
      | ok ws =>
          rw [hws] at hw; simp at hw
          rw [← hw]
          simpa [wrappedValue] using
            wrapEntries_wrapped n xs ws (by simpa [plainValue] using hp) hws
  | _, .llist _ _, _, hp, _ => by simp [plainValue] at hp
  | _, .lset _ _, _, hp, _ => by simp [plainValue] at hp
  | _, .lconf _ _, _, hp, _ => by simp [plainValue] at hp

theorem wrapElems_wrapped : ∀ (n : String) (xs ws : List Value), plainList xs = true →
    wrapElems n xs = .ok ws → wrappedList ws = true
  | n, [], ws, _, hw => by
      simp [wrapElems, pure, Except.pure] at hw
      subst hw; simp [wrappedList]
  | n, x :: xs, ws, hp, hw => by
      have hx : plainValue x = true := by simp_all [plainList]
      have hxs : plainList xs = true := by simp_all [plainList]
      rw [wrapElems] at hw
      cases hx1 : wrap_logged_config_value (n ++ "[...]") x with
      | error e => rw [hx1] at hw; simp [except_bind_err] at hw
      | ok w =>
          rw [hx1, except_bind_ok] at hw
          cases hx2 : wrapElems n xs with
          | error e => rw [hx2] at hw; simp [except_bind_err] at hw
          | ok ws' =>
              rw [hx2, except_bind_ok] at hw
              simp [pure, Except.pure] at hw
              rw [← hw]
              simp [wrappedList, wrap_wrapped (n ++ "[...]") x w hx hx1,
                wrapElems_wrapped n xs ws' hxs hx2]

theorem wrapSetElems_wrapped : ∀ (n : String) (xs acc ws : List Value),
    plainList xs = true → wrappedList acc = true →
    wrapSetElems n acc xs = .ok ws → wrappedList ws = true
  | n, [], acc, ws, _, hacc, hw => by
      simp [wrapSetElems, pure, Except.pure] at hw
      rw [← hw]; exact hacc
  | n, x :: xs, acc, ws, hp, hacc, hw => by
      have hx : plainValue x = true := by simp_all [plainList]
      have hxs : plainList xs = true := by simp_all [plainList]
      rw [wrapSetElems] at hw
      cases hx1 : wrap_logged_config_value (n ++ "[...]") x with
      | error e => rw [hx1] at hw; simp [except_bind_err] at hw
      | ok w =>
          rw [hx1, except_bind_ok] at hw
          cases hh : hashable w with
          | false => rw [hh] at hw; simp at hw
          | true =>
              rw [hh] at hw; simp at hw
              have haccw : wrappedList (setInsert acc w) = true := by
                unfold setInsert
                cases setMem acc w with
                | true => simpa using hacc
                | false =>
                    rw [wrappedList_iff]
                    intro y hy
                    have hy2 : y ∈ acc ∨ y = w := by simpa using hy
                    rcases hy2 with hy' | rfl
                    · exact (wrappedList_iff acc).1 hacc y hy'
                    · exact wrap_wrapped (n ++ "[...]") x y hx hx1
              exact wrapSetElems_wrapped n xs (setInsert acc w) ws hxs haccw hw

theorem wrapEntries_wrapped : ∀ (n : String) (xs ws : List (String × Value)),
    plainEntries xs = true → wrapEntries n xs = .ok ws → wrappedEntries ws = true
  | n, [], ws, _, hw => by
      simp [wrapEntries, pure, Except.pure] at hw
      subst hw; simp [wrappedEntries]
  | n, (k, v) :: xs, ws, hp, hw => by
      have hv : plainValue v = true := by simp_all [plainEntries]
      have hxs : plainEntries xs = true := by simp_all [plainEntries]
      rw [wrapEntries] at hw
      cases hx1 : wrap_logged_config_value (n ++ "." ++ k) v with
      | error e => rw [hx1] at hw; simp [except_bind_err] at hw
      | ok w =>
          rw [hx1, except_bind_ok] at hw
          cases hx2 : wrapEntries n xs with
          | error e => rw [hx2] at hw; simp [except_bind_err] at hw
          | ok ws' =>
              rw [hx2, except_bind_ok] at hw
              simp [pure, Except.pure] at hw
              rw [← hw]
              simp [wrappedEntries, wrap_wrapped (n ++ "." ++ k) v w hv hx1,
                wrapEntries_wrapped n xs ws' hxs hx2]

end

theorem dictSet_wrapped : ∀ (d : List (String × Value)) (k : String) (w : Value),
    wrappedEntries d = true → wrappedValue w = true →
    wrappedEntries (dictSet d k w) = true
  | [], k, w, _, hw => by simp [dictSet, wrappedEntries, hw]
  | (k', v') :: d, k, w, hd, hw => by
      simp only [wrappedEntries, Bool.and_eq_true] at hd
      unfold dictSet
      by_cases hk : k' = k <;>
        simp [hk, wrappedEntries, hd.1, hd.2, hw, dictSet_wrapped d k w hd.2 hw]

theorem dictDel_wrapped : ∀ (d d' : List (String × Value)) (k : String),
    wrappedEntries d = true → dictDel d k = some d' → wrappedEntries d' = true
  | [], _, k, _, hd => by simp [dictDel] at hd
  | (k', v') :: d, d', k, hw, hd => by
      simp only [wrappedEntries, Bool.and_eq_true] at hw
      unfold dictDel at hd
      by_cases hk : k' = k
      · simp [hk] at hd; rw [← hd]; exact hw.2
      · simp [hk] at hd
        obtain ⟨t, ht, rfl⟩ := hd
        simp [wrappedEntries, hw.1, dictDel_wrapped d t k hw.2 ht]

theorem listRemoveFirst_mem : ∀ (xs ys : List Value) (v : Value),
    listRemoveFirst xs v = some ys → ∀ y ∈ ys, y ∈ xs
  | [], _, v, h => by simp [listRemoveFirst] at h
  | x :: xs, ys, v, h => by
      unfold listRemoveFirst at h
      by_cases hx : x = v
      · simp [hx] at h
        intro y hy
        rw [← h] at hy
        exact List.mem_cons_of_mem x hy
      · simp [hx] at h
        obtain ⟨t, ht, rfl⟩ := h
        intro y hy
        rcases List.mem_cons.1 hy with rfl | hy'
        · exact List.mem_cons_self y xs
        · exact List.mem_cons_of_mem x (listRemoveFirst_mem xs t v ht y hy')

theorem setErase_subset (xs : List Value) (v : Value) :
    ∀ y ∈ setErase xs v, y ∈ xs := by
  intro y hy
  exact List.mem_of_mem_filter hy

theorem listPopAt_subset (xs : List Value) (i : Int) (r : Value × List Value)
    (hp : listPopAt xs i = .ok r) : ∀ y ∈ r.2, y ∈ xs := by
  unfold listPopAt at hp
  split at hp
  · simp only [Except.ok.injEq] at hp
    intro y hy
    rw [← hp] at hy
    rcases List.mem_append.1 hy with hy' | hy'
    · exact List.take_subset _ _ hy'
    · exact List.drop_subset _ _ hy'
  · simp at hp

theorem extendGo_wrapped (n : String) : ∀ (xs acc : List Value), plainList xs = true →
    wrappedList acc = true → wrappedList (extendGo n acc xs).2.1 = true
  | [], acc, _, hacc => hacc
  | x :: xs, acc, hp, hacc => by
      have hx : plainValue x = true := by simp_all [plainList]
      have hxs : plainList xs = true := by simp_all [plainList]
      unfold extendGo
      cases hw : wrap_logged_config_value (n ++ "[...]") x with
      | error e => simpa using hacc
      | ok w =>
          have hacc' : wrappedList (acc ++ [w]) = true := by
            rw [wrappedList_iff]
            intro y hy
            rcases List.mem_append.1 hy with hy' | hy'
            · exact (wrappedList_iff acc).1 hacc y hy'
            · have : y = w := by simpa using hy'
              rw [this]
              exact wrap_wrapped (n ++ "[...]") x w hx hw
          simpa using extendGo_wrapped n xs (acc ++ [w]) hxs hacc'

theorem setInsert_wrapped {acc : List Value} {v : Value} (hacc : wrappedList acc = true)
    (hv : wrappedValue v = true) : wrappedList (setInsert acc v) = true := by
  unfold setInsert
  cases setMem acc v with
  | true => simpa using hacc
  | false =>
      rw [wrappedList_iff]
      intro y hy
      have hy2 : y ∈ acc ∨ y = v := by simpa using hy
      rcases hy2 with hy' | rfl
      · exact (wrappedList_iff acc).1 hacc y hy'
      · exact hv

theorem setErase_wrapped {acc : List Value} (v : Value) (hacc : wrappedList acc = true) :
    wrappedList (setErase acc v) = true := by
  rw [wrappedList_iff]
  intro y hy
  exact (wrappedList_iff acc).1 hacc y (setErase_subset acc v y hy)

theorem updateGo_wrapped : ∀ (xs acc : List Value), isPrimList xs = true →
    wrappedList acc = true → wrappedList (updateGo acc xs).2.1 = true
  | [], acc, _, hacc => hacc
  | x :: xs, acc, hp, hacc => by
      obtain ⟨p, rfl⟩ : ∃ p, x = Value.prim p := by
        cases x <;> simp_all [isPrimList, Value.isPrim]
      have hxs : isPrimList xs = true := by simp_all [isPrimList]
      have hw : wrappedValue (Value.prim p) = true := by simp [wrappedValue]
      unfold updateGo
      simpa [hashable] using
        updateGo_wrapped xs (setInsert acc (.prim p)) hxs (setInsert_wrapped hacc hw)

theorem diffUpdateGo_wrapped : ∀ (xs acc : List Value),
    wrappedList acc = true → wrappedList (diffUpdateGo acc xs).2.1 = true
  | [], acc, hacc => hacc
  | x :: xs, acc, hacc => by
      unfold diffUpdateGo
      cases hh : hashable x with
      | false => simpa [hh] using hacc
      | true =>
          simpa [hh] using
            diffUpdateGo_wrapped xs (setErase acc x) (setErase_wrapped x hacc)

theorem pySetFold_prims : ∀ (xs acc : List Value), isPrimList xs = true →
    pySetFold acc xs = .ok (xs.foldl setInsert acc)
  | [], acc, _ => rfl
  | x :: xs, acc, hp => by
      obtain ⟨p, rfl⟩ : ∃ p, x = Value.prim p := by
        cases x <;> simp_all [isPrimList, Value.isPrim]
      have hxs : isPrimList xs = true := by simp_all [isPrimList]
      simp [pySetFold, hashable, List.foldl, pySetFold_prims xs (setInsert acc (.prim p)) hxs]

theorem foldl_setInsert_wrapped : ∀ (xs acc : List Value), isPrimList xs = true →
    wrappedList acc = true → wrappedList (xs.foldl setInsert acc) = true
  | [], acc, _, hacc => hacc
  | x :: xs, acc, hp, hacc => by
      obtain ⟨p, rfl⟩ : ∃ p, x = Value.prim p := by
        cases x <;> simp_all [isPrimList, Value.isPrim]
      have hxs : isPrimList xs = true := by simp_all [isPrimList]
      have hw : wrappedValue (Value.prim p) = true := by simp [wrappedValue]
      simpa using foldl_setInsert_wrapped xs (setInsert acc (.prim p)) hxs
        (setInsert_wrapped hacc hw)

theorem foldl_setInsert_sub : ∀ (xs acc : List Value) (y : Value),
    y ∈ xs.foldl setInsert acc → y ∈ acc ∨ y ∈ xs
  | [], _, _, h => Or.inl h
  | x :: xs, acc, y, h => by
      have h0 : y ∈ setInsert acc x ∨ y ∈ xs :=
        foldl_setInsert_sub xs (setInsert acc x) y h
      rcases h0 with h' | h'
      · unfold setInsert at h'
        cases hm : setMem acc x with
        | true => simp [hm] at h'; exact Or.inl h'
        | false =>
            simp [hm] at h'
            rcases h' with h' | h'
            · exact Or.inl h'
            · exact Or.inr (by simp [h'])
      · exact Or.inr (List.mem_cons_of_mem x h')

theorem foldl_symDiffToggle_wrapped : ∀ (xs acc : List Value),
    (∀ x ∈ xs, wrappedValue x = true) → wrappedList acc = true →
    wrappedList (xs.foldl symDiffToggle acc) = true
  | [], acc, _, hacc => hacc
  | x :: xs, acc, hxs, hacc => by
      have hx : wrappedValue x = true := hxs x (by simp)
      have hacc' : wrappedList (symDiffToggle acc x) = true := by
        unfold symDiffToggle
        cases setMem acc x with
        | true => simpa using setErase_wrapped x hacc
        | false =>
            rw [wrappedList_iff]
            intro y hy
            have hy2 : y ∈ acc ∨ y = x := by simpa using hy
            rcases hy2 with hy' | rfl
            · exact (wrappedList_iff acc).1 hacc y hy'
            · exact hx
      simpa using foldl_symDiffToggle_wrapped xs (symDiffToggle acc x) (fun y hy =>
        hxs y (List.mem_cons_of_mem x hy)) hacc'

/-- Arguments under which the claim's universally quantified invariant can
hold for set operations: inserted elements must be primitives, since the set
methods insert their arguments without wrapping (removal-only operations are
unrestricted). -/
def SetMutOp.argsPrim : SetMutOp → Bool
  | .add v => v.isPrim
  | .update vs => isPrimList vs
  | .symmetric_difference_update vs => isPrimList vs
  | _ => true

def ConfMutOp.argsPlain : ConfMutOp → Bool
  | .setItem _ v => plainValue v
  | .delItem _ => true

def ListMutOp.argsPlain : ListMutOp → Bool
  | .append v => plainValue v
  | .insert _ v => plainValue v
  | .extend vs => plainList vs
  | _ => true

/-- C2, counterexample: `LoggedSet.add` does *not* pass its argument through
the wrapping function — adding the (hashable) plain tuple `(1,)` stores the
raw tuple, a container-shaped element that is not a logged container, breaking
the recursive-wrapping invariant; had `add` wrapped it, the result would have
been a `LoggedList`, not the tuple itself. -/
theorem C2_counterexample :
    (LoggedSet.add ⟨"s", [], "s"⟩ (.vtuple [.prim (.int 1)])).2.1.elems =
      [.vtuple [.prim (.int 1)]] ∧
    (LoggedSet.add ⟨"s", [], "s"⟩ (.vtuple [.prim (.int 1)])).2.2 = Option.none ∧
    wrappedValue (.vtuple [.prim (.int 1)]) = false ∧
    wrap_logged_config_value "s[...]" (.vtuple [.prim (.int 1)]) ≠
      .ok (.vtuple [.prim (.int 1)]) := by decide

/-- C2, amended: construction from plain data establishes the
recursive-wrapping invariant, and every mutating operation preserves it —
provided the elements introduced through `LoggedSet`'s inserting operations
(`add`, `update`, `symmetric_difference_update`) are primitives, because those
methods insert their arguments without wrapping; in particular `LoggedSet.add`
stores its argument exactly as given. -/
theorem C2_invariant :
    (∀ (N : String) (d : List (String × Value)) (m : LoggedConfiguration),
      plainEntries d = true → LoggedConfiguration.init N d = .ok m →
      m.wfStore = true) ∧
    (∀ (N : String) (d : List Value) (l : LoggedList),
      plainList d = true → LoggedList.init N d = .ok l → l.wfStore = true) ∧
    (∀ (N : String) (d : List Value) (s : LoggedSet),
      plainList d = true → LoggedSet.init N d = .ok s → s.wfStore = true) ∧
    (∀ (m : LoggedConfiguration) (op : ConfMutOp), m.wfStore = true →
      op.argsPlain = true → (ConfMutOp.apply m op).2.1.wfStore = true) ∧
    (∀ (l : LoggedList) (op : ListMutOp), l.wfStore = true →
      op.argsPlain = true → (ListMutOp.apply l op).2.1.wfStore = true) ∧
    (∀ (s : LoggedSet) (op : SetMutOp), s.wfStore = true →
      op.argsPrim = true → (SetMutOp.apply s op).2.1.wfStore = true) ∧
    (∀ (s : LoggedSet) (v : Value), hashable v = true →
      (LoggedSet.add s v).2.1.elems = setInsert s.elems v) := by
  refine ⟨?_, ?_, ?_, ?_, ?_, ?_, ?_⟩
  · intro N d m hp h
    unfold LoggedConfiguration.init at h
    cases hw : wrapEntries N d with
    | error e => rw [hw] at h; simp [except_bind_err] at h
    | ok ws =>
        rw [hw, except_bind_ok] at h
        simp [pure, Except.pure] at h
        rw [← h]
        exact wrapEntries_wrapped N d ws hp hw
  · intro N d l hp h
    unfold LoggedList.init at h
    cases hw : wrapElems N d with
    | error e => rw [hw] at h; simp [except_bind_err] at h
    | ok ws =>
        rw [hw, except_bind_ok] at h
        simp [pure, Except.pure] at h
        rw [← h]
        exact wrapElems_wrapped N d ws hp hw
  · intro N d s hp h
    unfold LoggedSet.init at h
    cases hw : wrapSetElems N [] d with
    | error e => rw [hw] at h; simp [except_bind_err] at h
    | ok ws =>
        rw [hw, except_bind_ok] at h
        simp [pure, Except.pure] at h
        rw [← h]
        exact wrapSetElems_wrapped N d [] ws hp rfl hw
  · intro m op hm hargs
    cases op with
    | setItem k v =>
        unfold ConfMutOp.apply LoggedConfiguration.setItem
        cases hw : wrap_logged_config_value (m._name ++ "." ++ k) v with
        | error e => simpa [hw] using hm
        | ok w =>
            simp [hw, LoggedConfiguration.wfStore]
            exact dictSet_wrapped m._data k w hm
              (wrap_wrapped (m._name ++ "." ++ k) v w
                (by simpa [ConfMutOp.argsPlain] using hargs) hw)
    | delItem k =>
        unfold ConfMutOp.apply LoggedConfiguration.delItem
        cases hd : dictDel m._data k with
        | none => simpa [hd] using hm
        | some d' =>
            simp [hd, LoggedConfiguration.wfStore]
            exact dictDel_wrapped m._data d' k hm hd
  · intro l op hl hargs
    cases op with
    | append v =>
        unfold ListMutOp.apply LoggedList.append
        cases hw : wrap_logged_config_value (l._name ++ "[...]") v with
        | error e => simpa [hw] using hl
        | ok w =>
            simp [hw, LoggedList.wfStore]
            rw [wrappedList_iff]
            intro y hy
            rcases List.mem_append.1 hy with hy' | hy'
            · exact (wrappedList_iff l.elems).1 hl y hy'
            · have : y = w := by simpa using hy'
              rw [this]
              exact wrap_wrapped (l._name ++ "[...]") v w
                (by simpa [ListMutOp.argsPlain] using hargs) hw
    | insert i v =>
        unfold ListMutOp.apply LoggedList.insert
        cases hw : wrap_logged_config_value (l._name ++ "[...]") v with
        | error e => simpa [hw] using hl
        | ok w =>
            simp [hw, LoggedList.wfStore]
            rw [wrappedList_iff]
            intro y hy
            unfold listInsertAt at hy
            rcases List.mem_append.1 hy with hy' | hy'
            · exact (wrappedList_iff l.elems).1 hl y (List.take_subset _ _ hy')
            · rcases List.mem_cons.1 hy' with rfl | hy''
              · exact wrap_wrapped (l._name ++ "[...]") v y
                  (by simpa [ListMutOp.argsPlain] using hargs) hw
              · exact (wrappedList_iff l.elems).1 hl y (List.drop_subset _ _ hy'')
    | remove v =>
        unfold ListMutOp.apply LoggedList.remove
        cases hr : listRemoveFirst l.elems v with
        | none => simpa [hr] using hl
        | some xs =>
            simp [hr, LoggedList.wfStore]
            rw [wrappedList_iff]
            intro y hy
            exact (wrappedList_iff l.elems).1 hl y
              (listRemoveFirst_mem l.elems xs v hr y hy)
    | pop i =>
        unfold ListMutOp.apply LoggedList.pop
        cases hp : listPopAt l.elems i with
        | error e => simpa [hp] using hl
        | ok r =>
            simp [hp, LoggedList.wfStore]
            rw [wrappedList_iff]
            intro y hy
            exact (wrappedList_iff l.elems).1 hl y
              (listPopAt_subset l.elems i r hp y hy)
    | clear => simp [ListMutOp.apply, LoggedList.clear, LoggedList.wfStore, wrappedList]
    | extend vs =>
        unfold ListMutOp.apply LoggedList.extend
        simp [LoggedList.wfStore]
        exact extendGo_wrapped l._name vs l.elems
          (by simpa [ListMutOp.argsPlain] using hargs) hl
  · intro s op hs hargs
    cases op with
    | add v =>
        obtain ⟨p, rfl⟩ : ∃ p, v = Value.prim p := by
          cases v <;> simp_all [SetMutOp.argsPrim, Value.isPrim]
        have hw : wrappedValue (Value.prim p) = true := by simp [wrappedValue]
        unfold SetMutOp.apply LoggedSet.add
        simpa [hashable, LoggedSet.wfStore] using setInsert_wrapped hs hw
    | clear => simp [SetMutOp.apply, LoggedSet.clear, LoggedSet.wfStore, wrappedList]
    | difference_update vs =>
        unfold SetMutOp.apply LoggedSet.difference_update
        simpa [LoggedSet.wfStore] using diffUpdateGo_wrapped vs s.elems hs
    | discard v =>
        unfold SetMutOp.apply LoggedSet.discard
        cases hh : hashable v with
        | false => simpa [hh] using hs
        | true => simpa [hh, LoggedSet.wfStore] using setErase_wrapped v hs
    | pop v => simpa [SetMutOp.apply, LoggedSet.pop] using hs
    | remove v =>
        unfold SetMutOp.apply LoggedSet.remove
        cases hh : hashable v with
        | false => simpa [hh] using hs
        | true =>
            cases hm : setMem s.elems v with
            | false => simpa [hh, hm] using hs
            | true => simpa [hh, hm, LoggedSet.wfStore] using setErase_wrapped v hs
    | symmetric_difference_update vs =>
        have hp : isPrimList vs = true := by simpa [SetMutOp.argsPrim] using hargs
        simp [SetMutOp.apply, LoggedSet.symmetric_difference_update,
          pySetFold_prims vs [] hp, LoggedSet.wfStore]
        refine foldl_symDiffToggle_wrapped _ s.elems ?_ hs
        intro x hx
        have hx' : x ∈ ([] : List Value) ∨ x ∈ vs := foldl_setInsert_sub vs [] x hx
        rcases hx' with hx' | hx'
        · simp at hx'
        · have hxp : x.isPrim = true := by
            have h2 : ∀ y ∈ vs, Value.isPrim y = true := by
              simpa [isPrimList, List.all_eq_true] using hp
            exact h2 x hx'
          obtain ⟨p, rfl⟩ : ∃ p, x = Value.prim p := by
            cases x <;> simp_all [Value.isPrim]
          simp [wrappedValue]
    | update vs =>
        unfold SetMutOp.apply LoggedSet.update
        simpa [LoggedSet.wfStore] using
          updateGo_wrapped vs s.elems (by simpa [SetMutOp.argsPrim] using hargs) hs
  · intro s v hv
    unfold LoggedSet.add
    simp [hv]

/-- C2, witness: construction from plain data, one preserving operation per
container, and the unwrapped `add` on a concrete set. -/
theorem C2_witness :
    ((⟨"n", [("a", .prim (.int 1))], "n"⟩ : LoggedConfiguration).wfStore = true) ∧
    ((ConfMutOp.apply ⟨"n", [("a", .prim (.int 1))], "n"⟩
        (.setItem "b" (.prim (.int 2)))).2.1.wfStore = true) ∧
    ((SetMutOp.apply ⟨"s", [.prim (.int 1)], "s"⟩
        (.add (.prim (.int 2)))).2.1.wfStore = true) ∧
    ((LoggedSet.add ⟨"s", [.prim (.int 1)], "s"⟩ (.prim (.int 2))).2.1.elems =
      setInsert [.prim (.int 1)] (.prim (.int 2))) :=
  ⟨C2_invariant.1 "n" [("a", .prim (.int 1))] ⟨"n", [("a", .prim (.int 1))], "n"⟩
      (by decide) (by decide),
    C2_invariant.2.2.2.1 ⟨"n", [("a", .prim (.int 1))], "n"⟩
      (.setItem "b" (.prim (.int 2))) (by decide) (by decide),
    C2_invariant.2.2.2.2.2.1 ⟨"s", [.prim (.int 1)], "s"⟩
      (.add (.prim (.int 2))) (by decide) (by decide),
    C2_invariant.2.2.2.2.2.2 ⟨"s", [.prim (.int 1)], "s"⟩ (.prim (.int 2)) (by decide)⟩

/-! ## Claim C9 -/

/-- The list operation that consumes an iterable argument element by element. -/
def ListMutOp.isIterOp : ListMutOp → Bool
  | .extend _ => true
  | _ => false

/-- The set operations that consume an iterable argument element by element.
(`symmetric_difference_update` is *not* among them: the host builds a set from
the argument before touching the receiver, so it fails atomically.) -/
def SetMutOp.isIterOp : SetMutOp → Bool
  | .update _ => true
  | .difference_update _ => true
  | _ => false

theorem extendGo_error_decomp (n : String) : ∀ (vs acc : List Value),
    (extendGo n acc vs).2.2.isSome = true →
    ∃ pre x suf, vs = pre ++ x :: suf ∧
      (∃ ws, wrapElems n pre = .ok ws ∧ (extendGo n acc vs).2.1 = acc ++ ws) ∧
      ∀ w, wrap_logged_config_value (n ++ "[...]") x ≠ .ok w
  | [], acc, h => by simp [extendGo] at h
  | v :: vs, acc, h => by
      rw [extendGo] at h ⊢
      cases hw : wrap_logged_config_value (n ++ "[...]") v with
      | error e =>
          refine ⟨[], v, vs, by simp, ⟨[], rfl, by simp [hw]⟩, ?_⟩
          intro w hcontra
          rw [hw] at hcontra
          exact Except.noConfusion hcontra
      | ok w =>
          rw [hw] at h
          simp only [Option.isSome] at h
          obtain ⟨pre, x, suf, hvs, ⟨ws, hws, helems⟩, hx⟩ :=
            extendGo_error_decomp n vs (acc ++ [w]) (by simpa using h)
          refine ⟨v :: pre, x, suf, by simp [hvs], ⟨w :: ws, ?_, ?_⟩, hx⟩
          · simp [wrapElems, hw, hws, except_bind_ok]
          · simp [hw]
            rw [helems]
            simp
  termination_by vs => vs.length

theorem updateGo_error_decomp : ∀ (vs acc : List Value),
    (updateGo acc vs).2.2.isSome = true →
    ∃ pre x suf, vs = pre ++ x :: suf ∧ pre.all hashable = true ∧
      hashable x = false ∧ (updateGo acc vs).2.1 = pre.foldl setInsert acc
  | [], acc, h => by simp [updateGo] at h
  | v :: vs, acc, h => by
      rw [updateGo] at h ⊢
      cases hv : hashable v with
      | false => exact ⟨[], v, vs, by simp, by simp, hv, by simp [hv]⟩
      | true =>
          rw [hv] at h
          simp only [if_true] at h
          obtain ⟨pre, x, suf, hvs, hpre, hx, helems⟩ :=
            updateGo_error_decomp vs (setInsert acc v) (by simpa using h)
          exact ⟨v :: pre, x, suf, by simp [hvs], by simp [hv, hpre], hx,
            by simp [hv, List.foldl, helems]⟩
  termination_by vs => vs.length

theorem diffUpdateGo_error_decomp : ∀ (vs acc : List Value),
    (diffUpdateGo acc vs).2.2.isSome = true →
    ∃ pre x suf, vs = pre ++ x :: suf ∧ pre.all hashable = true ∧
      hashable x = false ∧ (diffUpdateGo acc vs).2.1 = pre.foldl setErase acc
  | [], acc, h => by simp [diffUpdateGo] at h
  | v :: vs, acc, h => by
      rw [diffUpdateGo] at h ⊢
      cases hv : hashable v with
      | false => exact ⟨[], v, vs, by simp, by simp, hv, by simp [hv]⟩
      | true =>
          rw [hv] at h
          simp only [if_true] at h
          obtain ⟨pre, x, suf, hvs, hpre, hx, helems⟩ :=
            diffUpdateGo_error_decomp vs (setErase acc v) (by simpa using h)
          exact ⟨v :: pre, x, suf, by simp [hvs], by simp [hv, hpre], hx,
            by simp [hv, List.foldl, helems]⟩
  termination_by vs => vs.length

/-- C9, counterexample: `LoggedSet.update` with `[1, [2]]` raises `TypeError`
on the unhashable second element *after* having added the first — the failed
call leaves the set mutated (`{1}` instead of the original `{}`), so "no
partial mutation on failure" is false. -/
theorem C9_counterexample :
    (LoggedSet.update ⟨"s", [], "s"⟩ [.prim (.int 1), .vlist [.prim (.int 2)]]).2.2 =
      some .typeError ∧
    (LoggedSet.update ⟨"s", [], "s"⟩ [.prim (.int 1), .vlist [.prim (.int 2)]]).2.1.elems =
      [.prim (.int 1)] ∧
    [Value.prim (.int 1)] ≠ ([] : List Value) := by decide

/-- C9, amended: every failing mutating operation leaves the container's
stored contents unchanged and returns the host error unchanged — except the
element-by-element iterable operations `list.extend`, `set.update` and
`set.difference_update`, whose failure partway through the argument retains
exactly the effect of the elements processed before the failing one (the
processed prefix wraps/inserts/discards as usual; the error is still the first
failing element's, propagated unchanged).  `symmetric_difference_update` is
atomic: the host builds a set from the argument before mutating the
receiver. -/
theorem C9_failure_atomicity :
    (∀ (m : LoggedConfiguration) (op : ConfMutOp),
      (ConfMutOp.apply m op).2.2.isSome = true → (ConfMutOp.apply m op).2.1 = m) ∧
    (∀ (l : LoggedList) (op : ListMutOp), op.isIterOp = false →
      (ListMutOp.apply l op).2.2.isSome = true → (ListMutOp.apply l op).2.1 = l) ∧
    (∀ (s : LoggedSet) (op : SetMutOp), op.isIterOp = false →
      (SetMutOp.apply s op).2.2.isSome = true → (SetMutOp.apply s op).2.1 = s) ∧
    (∀ (l : LoggedList) (vs : List Value), (l.extend vs).2.2.isSome = true →
      ∃ pre x suf, vs = pre ++ x :: suf ∧
        (∃ ws, wrapElems l._name pre = .ok ws ∧
          (l.extend vs).2.1.elems = l.elems ++ ws) ∧
        ∀ w, wrap_logged_config_value (l._name ++ "[...]") x ≠ .ok w) ∧
    (∀ (s : LoggedSet) (vs : List Value), (s.update vs).2.2.isSome = true →
      ∃ pre x suf, vs = pre ++ x :: suf ∧ pre.all hashable = true ∧
        hashable x = false ∧ (s.update vs).2.1.elems = pre.foldl setInsert s.elems) ∧
    (∀ (s : LoggedSet) (vs : List Value),
      (s.difference_update vs).2.2.isSome = true →
      ∃ pre x suf, vs = pre ++ x :: suf ∧ pre.all hashable = true ∧
        hashable x = false ∧
        (s.difference_update vs).2.1.elems = pre.foldl setErase s.elems) := by
  refine ⟨?_, ?_, ?_, ?_, ?_, ?_⟩
  · intro m op h
    cases op with
    | setItem k v =>
        unfold ConfMutOp.apply LoggedConfiguration.setItem at h ⊢
        cases hw : wrap_logged_config_value (m._name ++ "." ++ k) v with
        | error e => simp [hw]
        | ok w => simp [hw] at h
    | delItem k =>
        unfold ConfMutOp.apply LoggedConfiguration.delItem at h ⊢
        cases hd : dictDel m._data k with
        | none => simp [hd]
        | some d => simp [hd] at h
  · intro l op hiter h
    cases op with
    | append v =>
        unfold ListMutOp.apply LoggedList.append at h ⊢
        cases hw : wrap_logged_config_value (l._name ++ "[...]") v with
        | error e => simp [hw]
        | ok w => simp [hw] at h
    | insert i v =>
        unfold ListMutOp.apply LoggedList.insert at h ⊢
        cases hw : wrap_logged_config_value (l._name ++ "[...]") v with
        | error e => simp [hw]
        | ok w => simp [hw] at h
    | remove v =>
        unfold ListMutOp.apply LoggedList.remove at h ⊢
        cases hr : listRemoveFirst l.elems v with
        | none => simp [hr]
        | some xs => simp [hr] at h
    | pop i =>
        unfold ListMutOp.apply LoggedList.pop at h ⊢
        cases hp : listPopAt l.elems i with
        | error e => simp [hp, exceptToOpt]
        | ok r => simp [hp, exceptToOpt] at h
    | clear => simp [ListMutOp.apply, LoggedList.clear] at h
    | extend vs => simp [ListMutOp.isIterOp] at hiter
  · intro s op hiter h
    cases op with
    | add v =>
        unfold SetMutOp.apply LoggedSet.add at h ⊢
        cases hv : hashable v with
        | false => simp [hv]
        | true => simp [hv] at h
    | clear => simp [SetMutOp.apply, LoggedSet.clear] at h
    | difference_update vs => simp [SetMutOp.isIterOp] at hiter
    | discard v =>
        unfold SetMutOp.apply LoggedSet.discard at h ⊢
        cases hv : hashable v with
        | false => simp [hv]
        | true => simp [hv] at h
    | pop v => simp [SetMutOp.apply, LoggedSet.pop]
    | remove v =>
        unfold SetMutOp.apply LoggedSet.remove at h ⊢
        cases hv : hashable v with
        | false => simp [hv]
        | true =>
            cases hm : setMem s.elems v with
            | false => simp [hv, hm]
            | true => simp [hv, hm] at h
    | symmetric_difference_update vs =>
        unfold SetMutOp.apply LoggedSet.symmetric_difference_update at h ⊢
        cases hp : pySetFold [] vs with
        | error e => simp [hp]
        | ok other => simp [hp] at h
    | update vs => simp [SetMutOp.isIterOp] at hiter
  · intro l vs h
    unfold LoggedList.extend at h ⊢
    obtain ⟨pre, x, suf, hvs, ⟨ws, hws, helems⟩, hx⟩ :=
      extendGo_error_decomp l._name vs l.elems (by simpa using h)
    exact ⟨pre, x, suf, hvs, ⟨ws, hws, by simpa using helems⟩, hx⟩
  · intro s vs h
    unfold LoggedSet.update at h ⊢
    obtain ⟨pre, x, suf, hvs, hpre, hx, helems⟩ :=
      updateGo_error_decomp vs s.elems (by simpa using h)
    exact ⟨pre, x, suf, hvs, hpre, hx, by simpa using helems⟩
  · intro s vs h
    unfold LoggedSet.difference_update at h ⊢
    obtain ⟨pre, x, suf, hvs, hpre, hx, helems⟩ :=
      diffUpdateGo_error_decomp vs s.elems (by simpa using h)
    exact ⟨pre, x, suf, hvs, hpre, hx, by simpa using helems⟩

/-- C9, witness: a failing atomic operation (removing an absent value from a
list) leaves the state unchanged, and a failing `update` is characterized by
its processed prefix. -/
theorem C9_witness :
    ((ListMutOp.apply ⟨"l", [.prim (.int 1)], "l"⟩ (.remove (.prim (.int 2)))).2.1 =
      ⟨"l", [.prim (.int 1)], "l"⟩) ∧
    (∃ pre x suf, [Value.prim (.int 1), Value.vlist [.prim (.int 2)]] =
        pre ++ x :: suf ∧ pre.all hashable = true ∧ hashable x = false ∧
        (LoggedSet.update ⟨"s", [], "s"⟩
          [.prim (.int 1), .vlist [.prim (.int 2)]]).2.1.elems =
          pre.foldl setInsert []) :=
  ⟨C9_failure_atomicity.2.1 ⟨"l", [.prim (.int 1)], "l"⟩ (.remove (.prim (.int 2)))
      (by decide) (by decide),
    C9_failure_atomicity.2.2.2.2.1 ⟨"s", [], "s"⟩
      [.prim (.int 1), .vlist [.prim (.int 2)]] (by decide)⟩

/-! ## Reference model (object identity), for claim C3

The value model above identifies equal values; shallow-copy aliasing is about
host *object identity*, so the same source is embedded a second time over an
explicit heap: containers are heap objects, container-valued slots are
references, and allocation appends to the heap. -/

/-- A slot of a container object: an immutable primitive stored inline, or a
reference to a heap object. -/
inductive HCell where
  | prim (p : Prim)
  | ref (a : Nat)
  deriving DecidableEq, Repr

/-- A heap object: an instance of one of the three logged container classes.
The logger channel always equals the name and is omitted; logging itself is
covered by the value model (claim C8). -/
inductive HObj where
  | conf (name : String) (entries : List (String × HCell))
  | lst (name : String) (elems : List HCell)
  | st (name : String) (elems : List HCell)
  deriving DecidableEq, Repr

/-- The heap: `h.get? a` is the object at address `a`; allocation appends. -/
abbrev Heap := List HObj

/-- In-place mutation of the object at address `a`. -/
def hset (h : Heap) (a : Nat) (o : HObj) : Heap := h.set a o

/-- Hashability of a slot: primitives hash; every instance of the three logged
classes is unhashable. -/
def hcellHashable : HCell → Bool
  | .prim _ => true
  | .ref _ => false

def dictGetH : List (String × HCell) → String → Option HCell
  | [], _ => Option.none
  | (k', c) :: xs, k => if k' = k then some c else dictGetH xs k

def dictSetH : List (String × HCell) → String → HCell → List (String × HCell)
  | [], k, c => [(k, c)]
  | (k', c') :: xs, k, c =>
      if k' = k then (k, c) :: xs else (k', c') :: dictSetH xs k c

/-- `set.add` on a store of slots (all hashable slots are primitives, where
slot equality is host equality). -/
def setInsertH (xs : List HCell) (c : HCell) : List HCell :=
  if xs.contains c then xs else xs ++ [c]

mutual

/-- `wrap_logged_config_value` applied to plain configuration data, reference
model: allocates the logged object tree bottom-up and returns the slot for the
value.  `Option.none` models the `TypeError` raised when a set holds a
container-shaped element (its wrapped form is an unhashable object).  Logged
arguments are not plain data and are outside this entry point's scope. -/
def wrapPlainH (name : String) (v : Value) (h : Heap) : Option (HCell × Heap) :=
  match v with
  | .prim p => some (.prim p, h)
  | .vlist xs => do
      let r ← wrapPlainListH name xs h
      some (.ref r.2.length, r.2 ++ [HObj.lst name r.1])
  | .vtuple xs => do
      let r ← wrapPlainListH name xs h
      some (.ref r.2.length, r.2 ++ [HObj.lst name r.1])
  | .vset xs => do
      let r ← wrapPlainSetH name [] xs h
      some (.ref r.2.length, r.2 ++ [HObj.st name r.1])
  | .vdict xs => do
      let r ← wrapPlainEntriesH name xs h
      some (.ref r.2.length, r.2 ++ [HObj.conf name r.1])
  | _ => Option.none

/-- `LoggedList.__init__`'s generator over plain elements (child name
`name[...]`). -/
def wrapPlainListH (name : String) (xs : List Value) (h : Heap) :
    Option (List HCell × Heap) :=
  match xs with
  | [] => some ([], h)
  | x :: rest => do
      let rc ← wrapPlainH (name ++ "[...]") x h
      let rs ← wrapPlainListH name rest rc.2
      some (rc.1 :: rs.1, rs.2)

/-- `LoggedSet.__init__` over plain elements: wrap, hash, insert. -/
def wrapPlainSetH (name : String) (acc : List HCell) (xs : List Value) (h : Heap) :
    Option (List HCell × Heap) :=
  match xs with
  | [] => some (acc, h)
  | x :: rest => do
      let rc ← wrapPlainH (name ++ "[...]") x h
      if hcellHashable rc.1 then wrapPlainSetH name (setInsertH acc rc.1) rest rc.2
      else Option.none

/-- `LoggedConfiguration.__init__`'s comprehension over plain entries (child
name `name.key`). -/
def wrapPlainEntriesH (name : String) (xs : List (String × Value)) (h : Heap) :
    Option (List (String × HCell) × Heap) :=
  match xs with
  | [] => some ([], h)
  | (k, v) :: rest => do
      let rc ← wrapPlainH (name ++ "." ++ k) v h
      let rs ← wrapPlainEntriesH name rest rc.2
      some ((k, rc.1) :: rs.1, rs.2)

end

/-- `LoggedConfiguration(name, data)` on plain data, reference model: allocate
the wrapped children, then the mapping object itself. -/
def constructH (name : String) (data : List (String × Value)) (h : Heap) :
    Option (Nat × Heap) := do
  let r ← wrapPlainEntriesH name data h
  some (r.2.length, r.2 ++ [HObj.conf name r.1])

mutual

/-- `wrap_logged_config_value` applied to a *stored* slot (as `__init__` does
when re-run by `__copy__`): a primitive passes through; a reference to a
`LoggedConfiguration` passes through unchanged — the aliasing case — while a
reference to a `LoggedList`/`LoggedSet` is rebuilt as a fresh object whose
elements are themselves re-wrapped.  Recursion runs through the heap, so it is
fuelled; `Option.none` covers exhausted fuel, a dangling reference (neither
occurs on a closed heap with enough fuel) and the `TypeError` of rebuilding a
set holding an unhashable slot. -/
def wrapHCell : Nat → String → HCell → Heap → Option (HCell × Heap)
  | 0, _, _, _ => Option.none
  | _ + 1, _, .prim p, h => some (.prim p, h)
  | fuel + 1, name, .ref a, h =>
      match h.get? a with
      | some (.conf _ _) => some (.ref a, h)
      | some (.lst _ cs) => do
          let r ← wrapHCellList fuel name cs h
          some (.ref r.2.length, r.2 ++ [HObj.lst name r.1])
      | some (.st _ cs) => do
          let r ← wrapHCellSet fuel name [] cs h
          some (.ref r.2.length, r.2 ++ [HObj.st name r.1])
      | Option.none => Option.none

def wrapHCellList : Nat → String → List HCell → Heap → Option (List HCell × Heap)
  | _, _, [], h => some ([], h)
  | 0, _, _ :: _, _ => Option.none
  | fuel + 1, name, c :: cs, h => do
      let rc ← wrapHCell fuel (name ++ "[...]") c h
      let rs ← wrapHCellList fuel name cs rc.2
      some (rc.1 :: rs.1, rs.2)

def wrapHCellSet : Nat → String → List HCell → List HCell → Heap →
    Option (List HCell × Heap)
  | _, _, acc, [], h => some (acc, h)
  | 0, _, _, _ :: _, _ => Option.none
  | fuel + 1, name, acc, c :: cs, h => do
      let rc ← wrapHCell fuel (name ++ "[...]") c h
      if hcellHashable rc.1 then wrapHCellSet fuel name (setInsertH acc rc.1) cs rc.2
      else Option.none

def wrapHEntries : Nat → String → List (String × HCell) → Heap →
    Option (List (String × HCell) × Heap)
  | _, _, [], h => some ([], h)
  | 0, _, _ :: _, _ => Option.none
  | fuel + 1, name, (k, c) :: es, h => do
      let rc ← wrapHCell fuel (name ++ "." ++ k) c h
      let rs ← wrapHEntries fuel name es rc.2
      some ((k, rc.1) :: rs.1, rs.2)

end

/-- `LoggedConfiguration.__copy__` (src 52–53), reference model: re-run
`__init__` on the stored entry slots under the renamed name; mapping-valued
children keep their reference (aliased with the original), list/set-valued
children are rebuilt as fresh objects. -/
def confCopyH (fuel : Nat) (h : Heap) (a : Nat) : Option (Nat × Heap) :=
  match h.get? a with
  | some (.conf n es) => do
      let r ← wrapHEntries fuel (n ++ "(copy)") es h
      some (r.2.length, r.2 ++ [HObj.conf (n ++ "(copy)") r.1])
  | _ => Option.none

mutual

/-- `copy.deepcopy` of a stored slot, reference model: primitives are atomic;
an object reference invokes the class's `__deepcopy__` (src 55–56, 105–106,
156–157): deep-copy the contents, then re-run `__init__` under the renamed
`<name>(copy)`, which re-wraps the copied children.  Every object the result
references is freshly allocated.  The `memo` argument only short-circuits
references shared inside one tree and is dropped (no claim exercises in-tree
sharing). -/
def deepCopyCellH : Nat → HCell → Heap → Option (HCell × Heap)
  | 0, _, _ => Option.none
  | _ + 1, .prim p, h => some (.prim p, h)
  | fuel + 1, .ref a, h =>
      match h.get? a with
      | some (.conf n es) => do
          let r1 ← deepCopyEntriesH fuel es h
          let r2 ← wrapHEntries fuel (n ++ "(copy)") r1.1 r1.2
          some (.ref r2.2.length, r2.2 ++ [HObj.conf (n ++ "(copy)") r2.1])
      | some (.lst n cs) => do
          let r1 ← deepCopyListH fuel cs h
          let r2 ← wrapHCellList fuel (n ++ "(copy)") r1.1 r1.2
          some (.ref r2.2.length, r2.2 ++ [HObj.lst (n ++ "(copy)") r2.1])
      | some (.st n cs) => do
          let r1 ← deepCopyListH fuel cs h
          let r2 ← wrapHCellSet fuel (n ++ "(copy)") [] r1.1 r1.2
          some (.ref r2.2.length, r2.2 ++ [HObj.st (n ++ "(copy)") r2.1])
      | Option.none => Option.none

def deepCopyListH : Nat → List HCell → Heap → Option (List HCell × Heap)
  | _, [], h => some ([], h)
  | 0, _ :: _, _ => Option.none
  | fuel + 1, c :: cs, h => do
      let rc ← deepCopyCellH fuel c h
      let rs ← deepCopyListH fuel cs rc.2
      some (rc.1 :: rs.1, rs.2)

def deepCopyEntriesH : Nat → List (String × HCell) → Heap →
    Option (List (String × HCell) × Heap)
  | _, [], h => some ([], h)
  | 0, _ :: _, _ => Option.none
  | fuel + 1, (k, c) :: es, h => do
      let rc ← deepCopyCellH fuel c h
      let rs ← deepCopyEntriesH fuel es rc.2
      some ((k, rc.1) :: rs.1, rs.2)

end

/-- `LoggedConfiguration.__deepcopy__` (src 55–56), reference model: re-run
`__init__` on `copy.deepcopy(self._data)` under the renamed name. -/
def confDeepCopyH (fuel : Nat) (h : Heap) (a : Nat) : Option (Nat × Heap) :=
  match h.get? a with
  | some (.conf n es) => do
      let r1 ← deepCopyEntriesH fuel es h
      let r2 ← wrapHEntries fuel (n ++ "(copy)") r1.1 r1.2
      some (r2.2.length, r2.2 ++ [HObj.conf (n ++ "(copy)") r2.1])
  | _ => Option.none

/-- `LoggedConfiguration.__setitem__` through a reference: wraps the plain
argument (allocating its tree) and mutates the entry of the object at `a` in
place. -/
def setItemAtH (h : Heap) (a : Nat) (key : String) (v : Value) : Option Heap :=
  match h.get? a with
  | some (.conf n es) => do
      let rc ← wrapPlainH (n ++ "." ++ key) v h
      some (hset rc.2 a (.conf n (dictSetH es key rc.1)))
  | _ => Option.none

/-- `LoggedList.append` through a reference. -/
def appendAtH (h : Heap) (a : Nat) (v : Value) : Option Heap :=
  match h.get? a with
  | some (.lst n cs) => do
      let rc ← wrapPlainH (n ++ "[...]") v h
      some (hset rc.2 a (.lst n (cs ++ [rc.1])))
  | _ => Option.none

/-- `__getitem__` of the mapping object at `a`: one container's *view* of its
child `k`. -/
def readEntryH (h : Heap) (a : Nat) (k : String) : Option HCell :=
  match h.get? a with
  | some (.conf _ es) => dictGetH es k
  | _ => Option.none

def cellOkH (n : Nat) : HCell → Bool
  | .prim _ => true
  | .ref a => a < n

def objOkH (n : Nat) : HObj → Bool
  | .conf _ es => es.all (fun kc => cellOkH n kc.2)
  | .lst _ cs => cs.all (cellOkH n)
  | .st _ cs => cs.all (cellOkH n)

/-- Every reference in the heap points at an existing object — true of every
heap the construction entry points produce, and the reason the original
mapping's view can only dereference pre-existing addresses. -/
def closedHeap (h : Heap) : Bool := h.all (objOkH h.length)

/-- Heap extension: the second heap keeps every pre-existing object of the
first at its address (allocation only appends). -/
def heapExt (h h' : Heap) : Prop :=
  h.length ≤ h'.length ∧ ∀ x, x < h.length → h'.get? x = h.get? x

theorem heapExt_refl (h : Heap) : heapExt h h := ⟨le_refl _, fun _ _ => rfl⟩

theorem heapExt_trans {h₁ h₂ h₃ : Heap} (a : heapExt h₁ h₂) (b : heapExt h₂ h₃) :
    heapExt h₁ h₃ :=
  ⟨a.1.trans b.1, fun x hx => (b.2 x (lt_of_lt_of_le hx a.1)).trans (a.2 x hx)⟩

theorem heapExt_snoc (h : Heap) (o : HObj) : heapExt h (h ++ [o]) :=
  ⟨by simp, fun _ hx => List.get?_append hx⟩

theorem option_bind_eq_some {α β} {e : Option α} {f : α → Option β} {b : β}
    (h : (e >>= f) = some b) : ∃ a, e = some a ∧ f a = some b := by
  cases e with
  | none => simp at h
  | some a => exact ⟨a, rfl, by simpa using h⟩

mutual

theorem wrapHCell_ext : ∀ (fuel : Nat) (n : String) (c : HCell) (h : Heap)
    (r : HCell × Heap), wrapHCell fuel n c h = some r → heapExt h r.2
  | 0, n, c, h, r, hw => by simp [wrapHCell] at hw
  | fuel + 1, n, .prim p, h, r, hw => by
      simp [wrapHCell] at hw
      rw [← hw]
      exact heapExt_refl h
  | fuel + 1, n, .ref a, h, r, hw => by
      rw [wrapHCell] at hw
      cases hga : h.get? a with
      | none => rw [hga] at hw; simp at hw
      | some o =>
          rw [hga] at hw
          cases o with
          | conf nm es =>
              simp at hw
              rw [← hw]
              exact heapExt_refl h
          | lst nm cs =>
              obtain ⟨rl, hrl, hw2⟩ := option_bind_eq_some hw
              simp at hw2
              rw [← hw2]
              exact heapExt_trans (wrapHCellList_ext fuel n cs h rl hrl)
                (heapExt_snoc rl.2 _)
          | st nm cs =>
              obtain ⟨rl, hrl, hw2⟩ := option_bind_eq_some hw
              simp at hw2
              rw [← hw2]
              exact heapExt_trans (wrapHCellSet_ext fuel n [] cs h rl hrl)
                (heapExt_snoc rl.2 _)

theorem wrapHCellList_ext : ∀ (fuel : Nat) (n : String) (cs : List HCell) (h : Heap)
    (r : List HCell × Heap), wrapHCellList fuel n cs h = some r → heapExt h r.2
  | fuel, n, [], h, r, hw => by
      simp [wrapHCellList] at hw
      rw [← hw]
      exact heapExt_refl h
  | 0, n, c :: cs, h, r, hw => by simp [wrapHCellList] at hw
  | fuel + 1, n, c :: cs, h, r, hw => by
      rw [wrapHCellList] at hw
      obtain ⟨rc, hrc, hw2⟩ := option_bind_eq_some hw
      obtain ⟨rs, hrs, hw3⟩ := option_bind_eq_some hw2
      simp at hw3
      rw [← hw3]
      exact heapExt_trans (wrapHCell_ext fuel (n ++ "[...]") c h rc hrc)
        (wrapHCellList_ext fuel n cs rc.2 rs hrs)

theorem wrapHCellSet_ext : ∀ (fuel : Nat) (n : String) (acc cs : List HCell) (h : Heap)
    (r : List HCell × Heap), wrapHCellSet fuel n acc cs h = some r → heapExt h r.2
  | fuel, n, acc, [], h, r, hw => by
      simp [wrapHCellSet] at hw
      rw [← hw]
      exact heapExt_refl h
  | 0, n, acc, c :: cs, h, r, hw => by simp [wrapHCellSet] at hw
  | fuel + 1, n, acc, c :: cs, h, r, hw => by
      rw [wrapHCellSet] at hw
      obtain ⟨rc, hrc, hw2⟩ := option_bind_eq_some hw
      cases hh : hcellHashable rc.1 with
      | false => rw [hh] at hw2; simp at hw2
      | true =>
          rw [hh] at hw2
          simp only [if_true] at hw2
          exact heapExt_trans (wrapHCell_ext fuel (n ++ "[...]") c h rc hrc)
            (wrapHCellSet_ext fuel n (setInsertH acc rc.1) cs rc.2 r hw2)

theorem wrapHEntries_ext : ∀ (fuel : Nat) (n : String) (es : List (String × HCell))
    (h : Heap) (r : List (String × HCell) × Heap),
    wrapHEntries fuel n es h = some r → heapExt h r.2
  | fuel, n, [], h, r, hw => by
      simp [wrapHEntries] at hw
      rw [← hw]
      exact heapExt_refl h
  | 0, n, (k, c) :: es, h, r, hw => by simp [wrapHEntries] at hw
  | fuel + 1, n, (k, c) :: es, h, r, hw => by
      rw [wrapHEntries] at hw
      obtain ⟨rc, hrc, hw2⟩ := option_bind_eq_some hw
      obtain ⟨rs, hrs, hw3⟩ := option_bind_eq_some hw2
      simp at hw3
      rw [← hw3]
      exact heapExt_trans (wrapHCell_ext fuel (n ++ "." ++ k) c h rc hrc)
        (wrapHEntries_ext fuel n es rc.2 rs hrs)

end

mutual

theorem deepCopyCellH_ext : ∀ (fuel : Nat) (c : HCell) (h : Heap) (r : HCell × Heap),
    deepCopyCellH fuel c h = some r → heapExt h r.2
  | 0, c, h, r, hw => by simp [deepCopyCellH] at hw
  | fuel + 1, .prim p, h, r, hw => by
      simp [deepCopyCellH] at hw
      rw [← hw]
      exact heapExt_refl h
  | fuel + 1, .ref a, h, r, hw => by
      rw [deepCopyCellH] at hw
      cases hga : h.get? a with
      | none => rw [hga] at hw; simp at hw
      | some o =>
          rw [hga] at hw
          cases o with
          | conf nm es =>
              obtain ⟨r1, hr1, hw2⟩ := option_bind_eq_some hw
              obtain ⟨r2, hr2, hw3⟩ := option_bind_eq_some hw2
              simp at hw3
              rw [← hw3]
              exact heapExt_trans (deepCopyEntriesH_ext fuel es h r1 hr1)
                (heapExt_trans (wrapHEntries_ext fuel (nm ++ "(copy)") r1.1 r1.2 r2 hr2)
                  (heapExt_snoc r2.2 _))
          | lst nm cs =>
              obtain ⟨r1, hr1, hw2⟩ := option_bind_eq_some hw
              obtain ⟨r2, hr2, hw3⟩ := option_bind_eq_some hw2
              simp at hw3
              rw [← hw3]
              exact heapExt_trans (deepCopyListH_ext fuel cs h r1 hr1)
                (heapExt_trans (wrapHCellList_ext fuel (nm ++ "(copy)") r1.1 r1.2 r2 hr2)
                  (heapExt_snoc r2.2 _))
          | st nm cs =>
              obtain ⟨r1, hr1, hw2⟩ := option_bind_eq_some hw
              obtain ⟨r2, hr2, hw3⟩ := option_bind_eq_some hw2
              simp at hw3
              rw [← hw3]
              exact heapExt_trans (deepCopyListH_ext fuel cs h r1 hr1)
                (heapExt_trans
                  (wrapHCellSet_ext fuel (nm ++ "(copy)") [] r1.1 r1.2 r2 hr2)
                  (heapExt_snoc r2.2 _))

theorem deepCopyListH_ext : ∀ (fuel : Nat) (cs : List HCell) (h : Heap)
    (r : List HCell × Heap), deepCopyListH fuel cs h = some r → heapExt h r.2
  | fuel, [], h, r, hw => by
      simp [deepCopyListH] at hw
      rw [← hw]
      exact heapExt_refl h
  | 0, c :: cs, h, r, hw => by simp [deepCopyListH] at hw
  | fuel + 1, c :: cs, h, r, hw => by
      rw [deepCopyListH] at hw
      obtain ⟨rc, hrc, hw2⟩ := option_bind_eq_some hw
      obtain ⟨rs, hrs, hw3⟩ := option_bind_eq_some hw2
      simp at hw3
      rw [← hw3]
      exact heapExt_trans (deepCopyCellH_ext fuel c h rc hrc)
        (deepCopyListH_ext fuel cs rc.2 rs hrs)

theorem deepCopyEntriesH_ext : ∀ (fuel : Nat) (es : List (String × HCell)) (h : Heap)
    (r : List (String × HCell) × Heap), deepCopyEntriesH fuel es h = some r →
    heapExt h r.2
  | fuel, [], h, r, hw => by
      simp [deepCopyEntriesH] at hw
      rw [← hw]
      exact heapExt_refl h
  | 0, (k, c) :: es, h, r, hw => by simp [deepCopyEntriesH] at hw
  | fuel + 1, (k, c) :: es, h, r, hw => by
      rw [deepCopyEntriesH] at hw
      obtain ⟨rc, hrc, hw2⟩ := option_bind_eq_some hw
      obtain ⟨rs, hrs, hw3⟩ := option_bind_eq_some hw2
      simp at hw3
      rw [← hw3]
      exact heapExt_trans (deepCopyCellH_ext fuel c h rc hrc)
        (deepCopyEntriesH_ext fuel es rc.2 rs hrs)

end

mutual

theorem wrapPlainH_ext : ∀ (n : String) (v : Value) (h : Heap) (r : HCell × Heap),
    wrapPlainH n v h = some r → heapExt h r.2
  | n, .prim p, h, r, hw => by
      simp [wrapPlainH] at hw
      rw [← hw]
      exact heapExt_refl h
  | n, .vlist xs, h, r, hw => by
      rw [wrapPlainH] at hw
      obtain ⟨rl, hrl, hw2⟩ := option_bind_eq_some hw
      simp at hw2
      rw [← hw2]
      exact heapExt_trans (wrapPlainListH_ext n xs h rl hrl) (heapExt_snoc rl.2 _)
  | n, .vtuple xs, h, r, hw => by
      rw [wrapPlainH] at hw
      obtain ⟨rl, hrl, hw2⟩ := option_bind_eq_some hw
      simp at hw2
      rw [← hw2]
      exact heapExt_trans (wrapPlainListH_ext n xs h rl hrl) (heapExt_snoc rl.2 _)
  | n, .vset xs, h, r, hw => by
      rw [wrapPlainH] at hw
      obtain ⟨rl, hrl, hw2⟩ := option_bind_eq_some hw
      simp at hw2
      rw [← hw2]
      exact heapExt_trans (wrapPlainSetH_ext n [] xs h rl hrl) (heapExt_snoc rl.2 _)
  | n, .vdict xs, h, r, hw => by
      rw [wrapPlainH] at hw
      obtain ⟨rl, hrl, hw2⟩ := option_bind_eq_some hw
      simp at hw2
      rw [← hw2]
      exact heapExt_trans (wrapPlainEntriesH_ext n xs h rl hrl) (heapExt_snoc rl.2 _)
  | n, .llist _ _, h, r, hw => by simp [wrapPlainH] at hw
  | n, .lset _ _, h, r, hw => by simp [wrapPlainH] at hw
  | n, .lconf _ _, h, r, hw => by simp [wrapPlainH] at hw

theorem wrapPlainListH_ext : ∀ (n : String) (xs : List Value) (h : Heap)
    (r : List HCell × Heap), wrapPlainListH n xs h = some r → heapExt h r.2
  | n, [], h, r, hw => by
      simp [wrapPlainListH] at hw
      rw [← hw]
      exact heapExt_refl h
  | n, x :: xs, h, r, hw => by
      rw [wrapPlainListH] at hw
      obtain ⟨rc, hrc, hw2⟩ := option_bind_eq_some hw
      obtain ⟨rs, hrs, hw3⟩ := option_bind_eq_some hw2
      simp at hw3
      rw [← hw3]
      exact heapExt_trans (wrapPlainH_ext (n ++ "[...]") x h rc hrc)
        (wrapPlainListH_ext n xs rc.2 rs hrs)

theorem wrapPlainSetH_ext : ∀ (n : String) (acc : List HCell) (xs : List Value)
    (h : Heap) (r : List HCell × Heap), wrapPlainSetH n acc xs h = some r →
    heapExt h r.2
  | n, acc, [], h, r, hw => by
      simp [wrapPlainSetH] at hw
      rw [← hw]
      exact heapExt_refl h
  | n, acc, x :: xs, h, r, hw => by
      rw [wrapPlainSetH] at hw
      obtain ⟨rc, hrc, hw2⟩ := option_bind_eq_some hw
      cases hh : hcellHashable rc.1 with
      | false => rw [hh] at hw2; simp at hw2
      | true =>
          rw [hh] at hw2
          simp only [if_true] at hw2
          exact heapExt_trans (wrapPlainH_ext (n ++ "[...]") x h rc hrc)
            (wrapPlainSetH_ext n (setInsertH acc rc.1) xs rc.2 r hw2)

theorem wrapPlainEntriesH_ext : ∀ (n : String) (xs : List (String × Value)) (h : Heap)
    (r : List (String × HCell) × Heap), wrapPlainEntriesH n xs h = some r →
    heapExt h r.2
  | n, [], h, r, hw => by
      simp [wrapPlainEntriesH] at hw
      rw [← hw]
      exact heapExt_refl h
  | n, (k, v) :: xs, h, r, hw => by
      rw [wrapPlainEntriesH] at hw
      obtain ⟨rc, hrc, hw2⟩ := option_bind_eq_some hw
      obtain ⟨rs, hrs, hw3⟩ := option_bind_eq_some hw2
      simp at hw3
      rw [← hw3]
      exact heapExt_trans (wrapPlainH_ext (n ++ "." ++ k) v h rc hrc)
        (wrapPlainEntriesH_ext n xs rc.2 rs hrs)

end

theorem get?_lt {h : Heap} {a : Nat} {o : HObj} (hga : h.get? a = some o) :
    a < h.length := by
  by_contra hc
  rw [List.get?_eq_none.2 (le_of_not_lt hc)] at hga
  exact Option.noConfusion hga

theorem dictGetH_dictSetH_self : ∀ (es : List (String × HCell)) (k : String) (c : HCell),
    dictGetH (dictSetH es k c) k = some c
  | [], k, c => by simp [dictSetH, dictGetH]
  | (k', c') :: es, k, c => by
      by_cases hk : k' = k <;>
        simp [dictSetH, dictGetH, hk, dictGetH_dictSetH_self es k c]

/-- Re-wrapping a reference to a `LoggedConfiguration` passes the reference
through unchanged and allocates nothing — the aliasing case of `__copy__`. -/
theorem wrapHCell_conf_ref {fuel : Nat} (n : String) {a : Nat} {h : Heap}
    {nb : String} {eb : List (String × HCell)} (hgb : h.get? a = some (.conf nb eb)) :
    wrapHCell (fuel + 1) n (.ref a) h = some (.ref a, h) := by
  rw [wrapHCell, hgb]

theorem wrapHCell_shape (fuel : Nat) (n : String) (c : HCell) (h : Heap)
    (r : HCell × Heap) (hw : wrapHCell fuel n c h = some r) :
    r.1 = c ∨ ∃ b, r.1 = .ref b ∧ h.length ≤ b := by
  cases fuel with
  | zero => simp [wrapHCell] at hw
  | succ f =>
      cases c with
      | prim p =>
          simp [wrapHCell] at hw
          left; rw [← hw]
      | ref a =>
          rw [wrapHCell] at hw
          cases hga : h.get? a with
          | none => rw [hga] at hw; simp at hw
          | some o =>
              rw [hga] at hw
              cases o with
              | conf nm es =>
                  simp at hw
                  left; rw [← hw]
              | lst nm cs =>
                  obtain ⟨rl, hrl, hw2⟩ := option_bind_eq_some hw
                  simp at hw2
                  right
                  exact ⟨rl.2.length, by rw [← hw2],
                    (wrapHCellList_ext f n cs h rl hrl).1⟩
              | st nm cs =>
                  obtain ⟨rl, hrl, hw2⟩ := option_bind_eq_some hw
                  simp at hw2
                  right
                  exact ⟨rl.2.length, by rw [← hw2],
                    (wrapHCellSet_ext f n [] cs h rl hrl).1⟩

theorem deepCopyCellH_shape (fuel : Nat) (c : HCell) (h : Heap)
    (r : HCell × Heap) (hw : deepCopyCellH fuel c h = some r) :
    (∃ p, r.1 = .prim p) ∨ ∃ b, r.1 = .ref b ∧ h.length ≤ b := by
  cases fuel with
  | zero => simp [deepCopyCellH] at hw
  | succ f =>
      cases c with
      | prim p =>
          simp [deepCopyCellH] at hw
          exact Or.inl ⟨p, by rw [← hw]⟩
      | ref a =>
          rw [deepCopyCellH] at hw
          cases hga : h.get? a with
          | none => rw [hga] at hw; simp at hw
          | some o =>
              rw [hga] at hw
              cases o with
              | conf nm es =>
                  obtain ⟨r1, hr1, hw2⟩ := option_bind_eq_some hw
                  obtain ⟨r2, hr2, hw3⟩ := option_bind_eq_some hw2
                  simp at hw3
                  right
                  exact ⟨r2.2.length, by rw [← hw3],
                    ((deepCopyEntriesH_ext f es h r1 hr1).1).trans
                      (wrapHEntries_ext f (nm ++ "(copy)") r1.1 r1.2 r2 hr2).1⟩
              | lst nm cs =>
                  obtain ⟨r1, hr1, hw2⟩ := option_bind_eq_some hw
                  obtain ⟨r2, hr2, hw3⟩ := option_bind_eq_some hw2
                  simp at hw3
                  right
                  exact ⟨r2.2.length, by rw [← hw3],
                    ((deepCopyListH_ext f cs h r1 hr1).1).trans
                      (wrapHCellList_ext f (nm ++ "(copy)") r1.1 r1.2 r2 hr2).1⟩
              | st nm cs =>
                  obtain ⟨r1, hr1, hw2⟩ := option_bind_eq_some hw
                  obtain ⟨r2, hr2, hw3⟩ := option_bind_eq_some hw2
                  simp at hw3
                  right
                  exact ⟨r2.2.length, by rw [← hw3],
                    ((deepCopyListH_ext f cs h r1 hr1).1).trans
                      (wrapHCellSet_ext f (nm ++ "(copy)") [] r1.1 r1.2 r2 hr2).1⟩

/-- Re-wrapping the entries of a mapping keeps every mapping-valued entry
pointing at the *same* heap object: the copy aliases the original's
mapping-valued children. -/
theorem wrapHEntries_alias : ∀ (fuel : Nat) (nm : String)
    (es : List (String × HCell)) (h : Heap) (r : List (String × HCell) × Heap)
    (k : String) (b : Nat),
    wrapHEntries fuel nm es h = some r →
    dictGetH es k = some (.ref b) →
    (∃ nb eb, h.get? b = some (.conf nb eb)) →
    dictGetH r.1 k = some (.ref b)
  | _, _, [], _, _, k, b, _, hk, _ => by simp [dictGetH] at hk
  | 0, nm, (k₀, c) :: es, h, r, k, b, hw, hk, hconf => by simp [wrapHEntries] at hw
  | fuel + 1, nm, (k₀, c) :: es, h, r, k, b, hw, hk, hconf => by
      rw [wrapHEntries] at hw
      obtain ⟨rc, hrc, hw2⟩ := option_bind_eq_some hw
      obtain ⟨rs, hrs, hw3⟩ := option_bind_eq_some hw2
      simp at hw3
      rw [← hw3]
      unfold dictGetH at hk ⊢
      by_cases hkk : k₀ = k
      · rw [if_pos hkk] at hk ⊢
        simp at hk
        subst hk
        cases fuel with
        | zero => simp [wrapHCell] at hrc
        | succ f =>
            obtain ⟨nb, eb, hgb⟩ := hconf
            rw [wrapHCell_conf_ref (nm ++ "." ++ k₀) hgb] at hrc
            simp at hrc
            rw [← hrc]
      · rw [if_neg hkk] at hk ⊢
        have hext := wrapHCell_ext fuel (nm ++ "." ++ k₀) c h rc hrc
        obtain ⟨nb, eb, hgb⟩ := hconf
        exact wrapHEntries_alias fuel nm es rc.2 rs k b hrs hk
          ⟨nb, eb, by rw [hext.2 b (get?_lt hgb)]; exact hgb⟩

theorem deepCopyEntriesH_fresh : ∀ (fuel : Nat) (es : List (String × HCell))
    (h : Heap) (r : List (String × HCell) × Heap) (N : Nat), N ≤ h.length →
    deepCopyEntriesH fuel es h = some r →
    ∀ kv ∈ r.1, ∀ b, kv.2 = .ref b → N ≤ b
  | fuel, [], h, r, N, _, hw => by
      simp [deepCopyEntriesH] at hw
      rw [← hw]
      intro kv hkv
      simp at hkv
  | 0, (k, c) :: es, h, r, N, _, hw => by simp [deepCopyEntriesH] at hw
  | fuel + 1, (k, c) :: es, h, r, N, hN, hw => by
      rw [deepCopyEntriesH] at hw
      obtain ⟨rc, hrc, hw2⟩ := option_bind_eq_some hw
      obtain ⟨rs, hrs, hw3⟩ := option_bind_eq_some hw2
      simp at hw3
      rw [← hw3]
      intro kv hkv b hkvb
      rcases List.mem_cons.1 hkv with rfl | hkv'
      · simp at hkvb
        rcases deepCopyCellH_shape fuel c h rc hrc with ⟨p, hp⟩ | ⟨b', hb', hfresh⟩
        · rw [hp] at hkvb; exact HCell.noConfusion hkvb
        · rw [hb'] at hkvb
          obtain rfl : b' = b := HCell.ref.inj hkvb
          exact hN.trans hfresh
      · exact deepCopyEntriesH_fresh fuel es rc.2 rs N
          (hN.trans (deepCopyCellH_ext fuel c h rc hrc).1) hrs kv hkv' b hkvb

theorem wrapHEntries_fresh : ∀ (fuel : Nat) (nm : String)
    (es : List (String × HCell)) (h : Heap) (r : List (String × HCell) × Heap)
    (N : Nat), N ≤ h.length →
    (∀ kv ∈ es, ∀ b, kv.2 = HCell.ref b → N ≤ b) →
    wrapHEntries fuel nm es h = some r →
    ∀ kv ∈ r.1, ∀ b, kv.2 = .ref b → N ≤ b
  | fuel, nm, [], h, r, N, _, _, hw => by
      simp [wrapHEntries] at hw
      rw [← hw]
      intro kv hkv
      simp at hkv
  | 0, nm, (k, c) :: es, h, r, N, _, _, hw => by simp [wrapHEntries] at hw
  | fuel + 1, nm, (k, c) :: es, h, r, N, hN, hes, hw => by
      rw [wrapHEntries] at hw
      obtain ⟨rc, hrc, hw2⟩ := option_bind_eq_some hw
      obtain ⟨rs, hrs, hw3⟩ := option_bind_eq_some hw2
      simp at hw3
      rw [← hw3]
      intro kv hkv b hkvb
      rcases List.mem_cons.1 hkv with rfl | hkv'
      · simp at hkvb
        rcases wrapHCell_shape fuel (nm ++ "." ++ k) c h rc hrc with hsame | ⟨b', hb', hfresh⟩
        · rw [hsame] at hkvb
          exact hes (k, c) (by simp) b hkvb
        · rw [hb'] at hkvb
          obtain rfl : b' = b := HCell.ref.inj hkvb
          exact hN.trans hfresh
      · exact wrapHEntries_fresh fuel nm es rc.2 rs N
          (hN.trans (wrapHCell_ext fuel (nm ++ "." ++ k) c h rc hrc).1)
          (fun kv' hkv' b' hb' => hes kv' (List.mem_cons_of_mem _ hkv') b' hb')
          hrs kv hkv' b hkvb

/-- `__setitem__` through a reference mutates only the object at the target
address: every other pre-existing address is untouched. -/
theorem setItemAtH_frame (h : Heap) (a : Nat) (key : String) (v : Value) (h' : Heap)
    (hw : setItemAtH h a key v = some h') :
    h.length ≤ h'.length ∧ ∀ x, x ≠ a → x < h.length → h'.get? x = h.get? x := by
  unfold setItemAtH at hw
  cases hga : h.get? a with
  | none => rw [hga] at hw; simp at hw
  | some o =>
      rw [hga] at hw
      cases o with
      | conf n es =>
          obtain ⟨rc, hrc, hw2⟩ := option_bind_eq_some hw
          simp at hw2
          have hext := wrapPlainH_ext (n ++ "." ++ key) v h rc hrc
          constructor
          · rw [← hw2]; simpa [hset] using hext.1
          · intro x hxa hxlt
            rw [← hw2]
            unfold hset
            rw [List.get?_set_ne _ _ (Ne.symm hxa)]
            exact hext.2 x hxlt
      | lst n cs => simp at hw
      | st n cs => simp at hw

/-- After `__setitem__` through a reference, the target object holds the new
entry (and keeps its class and name). -/
theorem setItemAtH_at (h : Heap) (a : Nat) (key : String) (v : Value) (h' : Heap)
    (hw : setItemAtH h a key v = some h') :
    ∃ n es c, h.get? a = some (.conf n es) ∧
      h'.get? a = some (.conf n (dictSetH es key c)) ∧
      readEntryH h' a key = some c := by
  unfold setItemAtH at hw
  cases hga : h.get? a with
  | none => rw [hga] at hw; simp at hw
  | some o =>
      rw [hga] at hw
      cases o with
      | conf n es =>
          obtain ⟨rc, hrc, hw2⟩ := option_bind_eq_some hw
          simp at hw2
          have hext := wrapPlainH_ext (n ++ "." ++ key) v h rc hrc
          have halt : a < rc.2.length := lt_of_lt_of_le (get?_lt hga) hext.1
          have hget : h'.get? a = some (.conf n (dictSetH es key rc.1)) := by
            rw [← hw2]
            unfold hset
            exact List.get?_set_eq_of_lt _ halt
          refine ⟨n, es, rc.1, rfl, hget, ?_⟩
          unfold readEntryH
          rw [hget]
          exact dictGetH_dictSetH_self es key rc.1
      | lst n cs => simp at hw
      | st n cs => simp at hw

/-- C3, counterexample: the claim quantifies over *every* nested container
`X`, but shallow copy only aliases mapping-valued children.  Build
`M = LoggedConfiguration('m', {'x': [1]})` and its shallow copy: `__init__`
re-wraps the list child into a *fresh* `LoggedList` (address 2, not the
original's address 0).  Appending through the copy's view of `x` mutates only
the fresh object: the original's view of `x` still shows `[1]` — the mutation
is not observed through `M`. -/
theorem C3_counterexample :
    constructH "m" [("x", .vlist [.prim (.int 1)])] [] =
      some (1, [.lst "m.x" [.prim (.int 1)], .conf "m" [("x", .ref 0)]]) ∧
    confCopyH 10 [.lst "m.x" [.prim (.int 1)], .conf "m" [("x", .ref 0)]] 1 =
      some (3, [.lst "m.x" [.prim (.int 1)], .conf "m" [("x", .ref 0)],
        .lst "m(copy).x" [.prim (.int 1)], .conf "m(copy)" [("x", .ref 2)]]) ∧
    readEntryH [.lst "m.x" [.prim (.int 1)], .conf "m" [("x", .ref 0)],
        .lst "m(copy).x" [.prim (.int 1)], .conf "m(copy)" [("x", .ref 2)]] 1 "x" =
      some (.ref 0) ∧
    readEntryH [.lst "m.x" [.prim (.int 1)], .conf "m" [("x", .ref 0)],
        .lst "m(copy).x" [.prim (.int 1)], .conf "m(copy)" [("x", .ref 2)]] 3 "x" =
      some (.ref 2) ∧
    HCell.ref 2 ≠ HCell.ref 0 ∧
    appendAtH [.lst "m.x" [.prim (.int 1)], .conf "m" [("x", .ref 0)],
        .lst "m(copy).x" [.prim (.int 1)], .conf "m(copy)" [("x", .ref 2)]] 2
      (.prim (.int 2)) =
      some [.lst "m.x" [.prim (.int 1)], .conf "m" [("x", .ref 0)],
        .lst "m(copy).x" [.prim (.int 1), .prim (.int 2)],
        .conf "m(copy)" [("x", .ref 2)]] ∧
    List.get? [HObj.lst "m.x" [.prim (.int 1)], .conf "m" [("x", .ref 0)],
        .lst "m(copy).x" [.prim (.int 1), .prim (.int 2)],
        .conf "m(copy)" [("x", .ref 2)]] 0 = some (.lst "m.x" [.prim (.int 1)]) := by
  decide

/-- C3, amended: (A) for every mapping `M` whose entry `k` holds a nested
*mapping* `X`, the shallow copy's entry `k` is the very same heap object
(aliasing), so a mutation applied to `X` through the copy's view is observed
through `M`'s view; (B) the deep copy leaves every pre-existing object
untouched and references only freshly allocated children; (C) consequently a
mutation through any copy-side (fresh) address changes nothing at any
pre-existing address — on a closed heap, everything `M`'s view can
dereference — so the deep copy does not share the aliasing property.
List- and set-valued children are *not* aliased by the shallow copy (it
re-wraps them into fresh objects — the counterexample). -/
theorem C3_shallow_aliases_deep_does_not :
    (∀ (h : Heap) (aM b : Nat) (n : String) (es : List (String × HCell))
        (k : String) (f a' : Nat) (h₂ : Heap),
      h.get? aM = some (.conf n es) →
      dictGetH es k = some (.ref b) →
      (∃ nb eb, h.get? b = some (.conf nb eb)) →
      confCopyH f h aM = some (a', h₂) →
      (∃ es', h₂.get? a' = some (.conf (n ++ "(copy)") es') ∧
        dictGetH es' k = some (.ref b)) ∧
      readEntryH h₂ aM k = some (.ref b) ∧
      (∀ (key₂ : String) (v : Value) (h₃ : Heap), aM ≠ b →
        setItemAtH h₂ b key₂ v = some h₃ →
        readEntryH h₃ aM k = some (.ref b) ∧
        ∃ c, readEntryH h₃ b key₂ = some c)) ∧
    (∀ (h : Heap) (aM : Nat) (n : String) (es : List (String × HCell))
        (f a'' : Nat) (h₃ : Heap),
      closedHeap h = true →
      h.get? aM = some (.conf n es) →
      confDeepCopyH f h aM = some (a'', h₃) →
      (∀ x, x < h.length → h₃.get? x = h.get? x) ∧
      h.length ≤ a'' ∧
      (∃ es'', h₃.get? a'' = some (.conf (n ++ "(copy)") es'') ∧
        ∀ kv ∈ es'', ∀ b, kv.2 = HCell.ref b → h.length ≤ b)) ∧
    (∀ (h h₃ : Heap) (b' : Nat) (key : String) (v : Value) (h₄ : Heap),
      heapExt h h₃ → h.length ≤ b' → setItemAtH h₃ b' key v = some h₄ →
      ∀ x, x < h.length → h₄.get? x = h.get? x) := by
  refine ⟨?_, ?_, ?_⟩
  · intro h aM b n es k f a' h₂ hgM hk hconf hcopy
    unfold confCopyH at hcopy
    rw [hgM] at hcopy
    obtain ⟨re, hre, hcopy2⟩ := option_bind_eq_some hcopy
    simp at hcopy2
    obtain ⟨ha', hh₂⟩ : a' = re.2.length ∧ re.2 ++ [HObj.conf (n ++ "(copy)") re.1] = h₂ := by
      constructor
      · rw [← hcopy2.1]
      · exact hcopy2.2
    have hext : heapExt h h₂ := by
      rw [← hh₂]
      exact heapExt_trans (wrapHEntries_ext f (n ++ "(copy)") es h re hre)
        (heapExt_snoc re.2 _)
    have halias : dictGetH re.1 k = some (.ref b) :=
      wrapHEntries_alias f (n ++ "(copy)") es h re k b hre hk hconf
    have hgM2 : h₂.get? aM = some (.conf n es) := by
      rw [hext.2 aM (get?_lt hgM)]
      exact hgM
    refine ⟨⟨re.1, ?_, halias⟩, ?_, ?_⟩
    · rw [← hh₂, ha']
      exact List.get?_concat_length re.2 _
    · unfold readEntryH
      rw [hgM2]
      exact hk
    · intro key₂ v h₃ hne hset
      have hframe := setItemAtH_frame h₂ b key₂ v h₃ hset
      constructor
      · unfold readEntryH
        rw [hframe.2 aM hne (lt_of_lt_of_le (get?_lt hgM) hext.1), hgM2]
        exact hk
      · obtain ⟨nb, eb, c, _, _, hread⟩ := setItemAtH_at h₂ b key₂ v h₃ hset
        exact ⟨c, hread⟩
  · intro h aM n es f a'' h₃ _hclosed hgM hcopy
    unfold confDeepCopyH at hcopy
    rw [hgM] at hcopy
    obtain ⟨r1, hr1, hcopy2⟩ := option_bind_eq_some hcopy
    obtain ⟨r2, hr2, hcopy3⟩ := option_bind_eq_some hcopy2
    simp at hcopy3
    obtain ⟨ha'', hh₃⟩ : a'' = r2.2.length ∧
        r2.2 ++ [HObj.conf (n ++ "(copy)") r2.1] = h₃ := by
      constructor
      · rw [← hcopy3.1]
      · exact hcopy3.2
    have hext1 := deepCopyEntriesH_ext f es h r1 hr1
    have hext2 := wrapHEntries_ext f (n ++ "(copy)") r1.1 r1.2 r2 hr2
    have hext : heapExt h h₃ := by
      rw [← hh₃]
      exact heapExt_trans hext1 (heapExt_trans hext2 (heapExt_snoc r2.2 _))
    refine ⟨hext.2, ?_, ⟨r2.1, ?_, ?_⟩⟩
    · rw [ha'']
      exact hext1.1.trans hext2.1
    · rw [← hh₃, ha'']
      exact List.get?_concat_length r2.2 _
    · exact wrapHEntries_fresh f (n ++ "(copy)") r1.1 r1.2 r2 h.length hext1.1
        (deepCopyEntriesH_fresh f es h r1 h.length (le_refl _) hr1) hr2
  · intro h h₃ b' key v h₄ hext hb hset x hx
    have hframe := setItemAtH_frame h₃ b' key v h₄ hset
    rw [hframe.2 x (by omega) (lt_of_lt_of_le hx hext.1)]
    exact hext.2 x hx

/-- C3, witness: `M = LoggedConfiguration('m', {'d': {'y': 1}})`.  The
shallow copy's entry `d` is the original child object (address 0); setting a
key through it is seen through `M`.  The deep copy references only the fresh
address 2 (≥ 2 = original heap size), and a set through it leaves addresses
0 and 1 — all `M` can reach — unchanged. -/
theorem C3_witness :
    ((∃ es', List.get? [HObj.conf "m.d" [("y", .prim (.int 1))],
          .conf "m" [("d", .ref 0)], .conf "m(copy)" [("d", .ref 0)]] 2 =
        some (.conf ("m" ++ "(copy)") es') ∧ dictGetH es' "d" = some (.ref 0)) ∧
      readEntryH [HObj.conf "m.d" [("y", .prim (.int 1))],
          .conf "m" [("d", .ref 0)], .conf "m(copy)" [("d", .ref 0)]] 1 "d" =
        some (.ref 0) ∧
      (readEntryH [HObj.conf "m.d" [("y", .prim (.int 1)), ("z", .prim (.int 5))],
            .conf "m" [("d", .ref 0)], .conf "m(copy)" [("d", .ref 0)]] 1 "d" =
          some (.ref 0) ∧
        ∃ c, readEntryH [HObj.conf "m.d" [("y", .prim (.int 1)),
            ("z", .prim (.int 5))], .conf "m" [("d", .ref 0)],
            .conf "m(copy)" [("d", .ref 0)]] 0 "z" = some c)) ∧
    (∀ x, x < 2 →
      List.get? [HObj.conf "m.d" [("y", .prim (.int 1))], .conf "m" [("d", .ref 0)],
        .conf "m.d(copy)" [("y", .prim (.int 1))], .conf "m(copy)" [("d", .ref 2)]] x =
      List.get? [HObj.conf "m.d" [("y", .prim (.int 1))],
        .conf "m" [("d", .ref 0)]] x) ∧
    (∀ x, x < 2 →
      List.get? [HObj.conf "m.d" [("y", .prim (.int 1))], .conf "m" [("d", .ref 0)],
        .conf "m.d(copy)" [("y", .prim (.int 1)), ("z", .prim (.int 5))],
        .conf "m(copy)" [("d", .ref 2)]] x =
      List.get? [HObj.conf "m.d" [("y", .prim (.int 1))],
        .conf "m" [("d", .ref 0)]] x) := by
  refine ⟨?_, ?_, ?_⟩
  · obtain ⟨h1, h2, h3⟩ := C3_shallow_aliases_deep_does_not.1
      [HObj.conf "m.d" [("y", .prim (.int 1))], .conf "m" [("d", .ref 0)]]
      1 0 "m" [("d", .ref 0)] "d" 10 2
      [HObj.conf "m.d" [("y", .prim (.int 1))], .conf "m" [("d", .ref 0)],
        .conf "m(copy)" [("d", .ref 0)]]
      (by decide) (by decide) ⟨"m.d", [("y", .prim (.int 1))], by decide⟩ (by decide)
    exact ⟨h1, h2, h3 "z" (.prim (.int 5))
      [HObj.conf "m.d" [("y", .prim (.int 1)), ("z", .prim (.int 5))],
        .conf "m" [("d", .ref 0)], .conf "m(copy)" [("d", .ref 0)]]
      (by decide) (by decide)⟩
  · exact (C3_shallow_aliases_deep_does_not.2.1
      [HObj.conf "m.d" [("y", .prim (.int 1))], .conf "m" [("d", .ref 0)]]
      1 "m" [("d", .ref 0)] 10 3
      [HObj.conf "m.d" [("y", .prim (.int 1))], .conf "m" [("d", .ref 0)],
        .conf "m.d(copy)" [("y", .prim (.int 1))], .conf "m(copy)" [("d", .ref 2)]]
      (by decide) (by decide) (by decide)).1
  · exact C3_shallow_aliases_deep_does_not.2.2
      [HObj.conf "m.d" [("y", .prim (.int 1))], .conf "m" [("d", .ref 0)]]
      [HObj.conf "m.d" [("y", .prim (.int 1))], .conf "m" [("d", .ref 0)],
        .conf "m.d(copy)" [("y", .prim (.int 1))], .conf "m(copy)" [("d", .ref 2)]]
      2 "z" (.prim (.int 5))
      [HObj.conf "m.d" [("y", .prim (.int 1))], .conf "m" [("d", .ref 0)],
        .conf "m.d(copy)" [("y", .prim (.int 1)), ("z", .prim (.int 5))],
        .conf "m(copy)" [("d", .ref 2)]]
      ⟨by decide, fun x hx => by
        match x with
        | 0 => rfl
        | 1 => rfl
        | n + 2 => simp at hx⟩ (by decide) (by decide)

end LoggedConfig
